import Mathlib

/-!
Verification development for the `background_magic` package: a shallow
embedding in Lean 4 of the coordinator (`background_magic/__init__.py`)
and the worker entry point (`background_magic/background_runner.py`),
with theorems about the supersession protocol, the output channel
protocol, the listener state machine, and the variable-transfer logic.

Modelling conventions:
* Python dicts are association lists (`List (String × α)`); assignment
  `d[k] = v` is `insertA` (replace in place if the key exists, append
  otherwise), `del d[k]` is `eraseKey`, `d1.update(d2)` is `updateEnv`.
* Python values are abstracted by `PyVal`, which records exactly the
  attributes the source inspects: whether the value is a module, whether
  it carries module-like attributes (`__name__`/`__spec__`/`__package__`),
  whether it is one of the simple builtin types
  (int/float/str/bool/list/dict/tuple/set), and whether
  `cloudpickle.dumps` succeeds on it (serialization is the black-box
  primitive of the design).
* The multiprocessing queue is a FIFO list of events: the producer's
  `put` order is the consumer's `get` order; `queue.Empty` timeouts
  occur once the list is exhausted.
* OS process primitives (`terminate`/`kill`/`join`) are modelled as the
  reliable primitives the design assumes, except in the teardown-fault
  model where the steps are made independently fallible in order to
  examine the exception flow of `_stop_task`.
-/

namespace BackgroundMagic

/-- Abstraction of a Python runtime value, carrying exactly the
attributes inspected by the source code. -/
inductive PyVal where
  /-- an int literal (isinstance of the simple types, always picklable) -/
  | int (n : Int)
  /-- a str literal (simple, picklable) -/
  | str (s : String)
  /-- a bool literal (simple, picklable) -/
  | boolv (b : Bool)
  /-- a list of ints (simple, picklable) -/
  | listv (xs : List Int)
  /-- a module object (cloudpickle pickles modules by reference) -/
  | module (name : String)
  /-- any other object: records whether it exposes
  `__name__`/`__spec__`/`__package__` together and whether
  `cloudpickle.dumps` succeeds on it -/
  | obj (hasModuleAttrs : Bool) (picklable : Bool) (tag : String)
deriving DecidableEq, Repr

namespace PyVal

/-- `isinstance(value, (int, float, str, bool, list, dict, tuple, set))`
restricted to the value universe. -/
def isSimpleType : PyVal → Bool
  | int _ | str _ | boolv _ | listv _ => true
  | module _ | obj _ _ _ => false

/-- Whether `cloudpickle.dumps` succeeds.  Simple builtins always
pickle; cloudpickle pickles modules by reference; other objects carry
an explicit flag (serialization is the design's black-box primitive). -/
def canPickle : PyVal → Bool
  | int _ | str _ | boolv _ | listv _ => true
  | module _ => true
  | obj _ p _ => p

end PyVal

/-- `is_module_or_unpicklable` from `background_runner.py`: true for
module instances and for objects exposing `__name__`, `__spec__` and
`__package__` together; the `callable` branch of the source returns
`False`, as does the fallthrough. -/
def is_module_or_unpicklable : PyVal → Bool
  | .module _ => true
  | .obj hm _ _ => hm
  | _ => false

/-! ### Association-list primitives (Python dict operations) -/

/-- A Python dict with `String` keys. -/
abbrev Env := List (String × PyVal)

/-- `d.get(k)` / `d[k]` lookup: first entry with the given key. -/
def lookupA {κ α : Type} [DecidableEq κ] : List (κ × α) → κ → Option α
  | [], _ => none
  | p :: ps, k => if p.1 = k then some p.2 else lookupA ps k

/-- `k in d`. -/
def containsKey {κ α : Type} [DecidableEq κ] (l : List (κ × α)) (k : κ) : Bool :=
  (lookupA l k).isSome

/-- `d[k] = v`: replace the entry in place if the key is present,
append otherwise (Python dicts preserve insertion order). -/
def insertA {κ α : Type} [DecidableEq κ] (l : List (κ × α)) (k : κ) (v : α) :
    List (κ × α) :=
  if containsKey l k then
    l.map (fun p => if p.1 = k then (k, v) else p)
  else
    l ++ [(k, v)]

/-- `del d[k]` (for the key-distinct dicts of the model this is the
removal of the unique entry with key `k`). -/
def eraseKey {κ α : Type} [DecidableEq κ] (l : List (κ × α)) (k : κ) :
    List (κ × α) :=
  l.filter (fun p => p.1 ≠ k)

/-- `d1.update(d2)`: write each entry of `d2` into `d1` in order. -/
def updateEnv (d1 d2 : Env) : Env :=
  d2.foldl (fun acc p => insertA acc p.1 p.2) d1

/-- The keys of a dict, first occurrences only. -/
def keysOf {κ α : Type} [DecidableEq κ] (l : List (κ × α)) : List κ :=
  (l.map Prod.fst).dedup

/-! ### Python string primitives

Implemented over `String.data` so that every definition evaluates by
kernel reduction. -/

/-- Whether the second character list starts the first. -/
def charsLead : List Char → List Char → Bool
  | _, [] => true
  | [], _ :: _ => false
  | c :: cs, d :: ds => c = d && charsLead cs ds

/-- Python `s.startswith(p)`. -/
def pyStartsWith (s p : String) : Bool :=
  charsLead s.data p.data

theorem lookupA_append {κ α : Type} [DecidableEq κ] (l1 l2 : List (κ × α)) (k : κ) :
    lookupA (l1 ++ l2) k = ((lookupA l1 k).orElse (fun _ => lookupA l2 k)) := by
  induction l1 with
  | nil => simp [lookupA]
  | cons p ps ih =>
    by_cases hp : p.1 = k
    · simp [lookupA, hp, Option.orElse]
    · simp [lookupA, hp, ih]

theorem lookupA_map_replace {κ α : Type} [DecidableEq κ] (l : List (κ × α)) (k k' : κ) (v : α)
    (hne : k' ≠ k) :
    lookupA (l.map (fun p => if p.1 = k then (k, v) else p)) k' = lookupA l k' := by
  induction l with
  | nil => simp [lookupA]
  | cons p ps ih =>
    by_cases hp : p.1 = k
    · simp [lookupA, hp, Ne.symm hne, ih]
    · have hid : (if p.1 = k then (k, v) else p) = p := if_neg hp
      rw [List.map_cons, hid]
      simp [lookupA, ih]

theorem lookupA_map_replace_self {κ α : Type} [DecidableEq κ] (l : List (κ × α)) (k : κ) (v : α)
    (h : containsKey l k = true) :
    lookupA (l.map (fun p => if p.1 = k then (k, v) else p)) k = some v := by
  induction l with
  | nil => simp [containsKey, lookupA] at h
  | cons p ps ih =>
    by_cases hp : p.1 = k
    · simp [lookupA, hp]
    · simp only [containsKey, lookupA, hp, if_false] at h
      simp [lookupA, hp, ih h]

theorem lookupA_insertA_self {κ α : Type} [DecidableEq κ] (l : List (κ × α)) (k : κ) (v : α) :
    lookupA (insertA l k v) k = some v := by
  unfold insertA
  by_cases h : containsKey l k
  · simp [h, lookupA_map_replace_self l k v h]
  · have : lookupA l k = none := by
      cases hl : lookupA l k with
      | none => rfl
      | some w => simp [containsKey, hl] at h
    simp [h, lookupA_append, this, lookupA, Option.orElse]

theorem lookupA_insertA_ne {κ α : Type} [DecidableEq κ] (l : List (κ × α)) (k k' : κ) (v : α)
    (hne : k' ≠ k) : lookupA (insertA l k v) k' = lookupA l k' := by
  unfold insertA
  by_cases h : containsKey l k
  · simp [h, lookupA_map_replace l k k' v hne]
  · simp [h, lookupA_append, lookupA, hne, Ne.symm hne]

theorem lookupA_updateEnv (d1 d2 : Env) (k : String) :
    lookupA (updateEnv d1 d2) k =
      ((lookupA d2.reverse k).orElse (fun _ => lookupA d1 k)) := by
  induction d2 generalizing d1 with
  | nil => simp [updateEnv, lookupA]
  | cons p ps ih =>
    show lookupA (updateEnv (insertA d1 p.1 p.2) ps) k = _
    rw [ih, List.reverse_cons, lookupA_append]
    cases hps : lookupA ps.reverse k with
    | some v => simp [Option.orElse]
    | none =>
      by_cases hp : p.1 = k
      · subst hp
        simp [Option.orElse, lookupA, lookupA_insertA_self]
      · simp [Option.orElse, lookupA, hp,
          lookupA_insertA_ne d1 p.1 k p.2 (fun h => hp h.symm)]

/-! ### Channel events

A message on the output queue is the tuple
`(msg_type, task_id, content)` put by the worker
(`background_runner.py`): `msg_type` is one of
`"stdout"`, `"stderr"`, `"display_data"`, `"status"`. -/

/-- The two redirected standard streams. -/
inductive StreamKind where
  | stdout
  | stderr
deriving DecidableEq, Repr

/-- A `display_data` payload: the cloudpickle blob of
`{'data': ..., 'metadata': ...}`.  `good` deserializes back to its dict
pair; `bad` is a blob on which `cloudpickle.loads` fails with the given
message (deserialization is the black-box primitive). -/
inductive Payload where
  | good (data : List (String × String)) (metadata : List (String × String))
  | bad (err : String)
deriving DecidableEq, Repr

/-- `cloudpickle.loads` on a display payload. -/
def payloadLoads : Payload → Except String (List (String × String) × List (String × String))
  | .good d m => .ok (d, m)
  | .bad e => .error e

/-- A queue message `(msg_type, task_id, content)`. -/
inductive Event where
  | stream (k : StreamKind) (taskId : String) (text : String)
  | displayData (taskId : String) (payload : Payload)
  | status (taskId : String) (s : String)
deriving DecidableEq, Repr

/-! ### Output listener (`output_listener` in `__init__.py`)

The listener drains the queue for one task.  With a `parent_header` it
forwards stream and display events through `session.send` on the iopub
socket, correlated by that header; without one it falls back to local
prints and — per the source's `continue` before the status branch —
skips status messages entirely.  On `queue.Empty` it stops once
`process_finished` is set, else refreshes the spinner.  The module
never imports `traceback`, so the with-header display decode-failure
handler raises `NameError` and the loop's outer `except` sets
`final_status` to `"listener_error"`, sets the stop event and breaks. -/

/-- A `session.send` call made by the listener, tagged with the
correlation token (`parent_header`) it was sent with. -/
inductive Send where
  | stream (k : StreamKind) (text : String) (parent : String)
  | display (data : List (String × String)) (metadata : List (String × String))
      (parent : String)
deriving DecidableEq, Repr

/-- A local fallback emission (plain `print`, used when no
`parent_header` is available). -/
inductive LocalOut where
  | stdout (text : String)
  | stderr (text : String)
  | rawDisplay (data : List (String × String))
deriving DecidableEq, Repr

/-- Listener-internal state: `final_status` (initially `"Unknown"`),
`process_finished`, and the `stop_event` flag. -/
structure ListenerState where
  finalStatus : String
  processFinished : Bool
  stopSet : Bool
deriving DecidableEq, Repr

/-- Listener state at loop entry. -/
def initListener : ListenerState :=
  { finalStatus := "Unknown", processFinished := false, stopSet := false }

/-- The status branch of the listener loop (lines ``elif msg_type ==
"status"`` of the source): `completed`/`error` overwrite
`final_status`; `finished_processing` sets `process_finished` and
defaults `final_status` to `completed` when still `"Unknown"`. -/
def statusStep (st : ListenerState) (s : String) : ListenerState :=
  if s = "running" then st
  else if s = "completed" then { st with finalStatus := "completed" }
  else if s = "error" then { st with finalStatus := "error" }
  else if s = "finished_processing" then
    { st with processFinished := true,
              finalStatus := if st.finalStatus = "Unknown" then "completed"
                             else st.finalStatus }
  else st

/-- One loop iteration that received a message.  Returns the new state,
the `session.send` calls made (header present) and the local fallback
output (header absent).  With `parent = none` the source prints
stream/display content locally and `continue`s before the status
branch, so status messages are skipped.

With a header, a display payload that fails to deserialize crashes the
listener: the `except` handler formats its error text with
`traceback.format_exc()`, but `traceback` is never imported in
`__init__.py`, so the handler itself raises `NameError` before any send
is made; the loop's outer `except Exception` then prints
`[Listener Error] ...` locally, sets `final_status` to
`"listener_error"`, sets the stop event and breaks the loop. -/
def listenerMsgStep (parent : Option String) (st : ListenerState) (e : Event) :
    ListenerState × List Send × List LocalOut :=
  match parent with
  | none =>
    match e with
    | .stream .stdout _ t => (st, [], [.stdout t])
    | .stream .stderr _ t => (st, [], [.stderr t])
    | .displayData _ p =>
      match payloadLoads p with
      | .ok (d, _) => (st, [], [.rawDisplay d])
      | .error e => (st, [], [.stderr ("[Display Error - No Header] " ++ e)])
    | .status _ _ => (st, [], [])
  | some ph =>
    match e with
    | .stream k _ t => (st, [.stream k t ph], [])
    | .displayData _ p =>
      match payloadLoads p with
      | .ok (d, m) => (st, [.display d m ph], [])
      | .error _ =>
        ({ st with finalStatus := "listener_error", stopSet := true }, [],
         [.stderr "[Listener Error] NameError: name traceback is not defined"])
    | .status _ s => (statusStep st s, [], [])

/-- The `queue.Empty` branch: if the worker has signalled
`finished_processing` and the queue is drained, set the stop flag
(the loop then exits); otherwise the spinner is refreshed and the loop
continues. -/
def listenerTimeoutStep (st : ListenerState) : ListenerState :=
  if st.processFinished then { st with stopSet := true } else st

/-- Drain a FIFO queue contents: process each message in arrival order
(the queue is FIFO and per-task, so arrival order is the producer's
`put` order), accumulating sends and local output.  The loop head
re-checks the stop event (`while not stop_event.is_set()`), so once the
stop flag is set — in particular by the undecodable-display crash path —
the remaining messages are never read. -/
def listenerConsume (parent : Option String) (st : ListenerState) :
    List Event → ListenerState × List Send × List LocalOut
  | [] => (st, [], [])
  | e :: es =>
    if st.stopSet then (st, [], [])
    else
      let (st', s1, l1) := listenerMsgStep parent st e
      let (st'', s2, l2) := listenerConsume parent st' es
      (st'', s1 ++ s2, l1 ++ l2)

/-- The `session.send` a single worker event translates to under
correlation token `ph` (status events produce none, and an undecodable
display payload produces none either: the listener dies on it before
sending). -/
def sendOf (ph : String) : Event → Option Send
  | .stream k _ t => some (.stream k t ph)
  | .displayData _ p =>
    match payloadLoads p with
    | .ok (d, m) => some (.display d m ph)
    | .error _ => none
  | .status _ _ => none

/-- No display payload in the list fails to deserialize (the condition
under which the listener survives the whole list). -/
def noBadDisplay (es : List Event) : Bool :=
  es.all (fun e =>
    match e with
    | .displayData _ (.bad _) => false
    | _ => true)

/-- The listener's `final_status` after consuming a message list with a
header present. -/
def finalStatusAfter (ph : String) (es : List Event) : String :=
  ((listenerConsume (some ph) initListener es).1).finalStatus

/-- The listener's final-outcome flag as the claim words it
("first-write-wins"): `completed`/`error` set the flag only while it is
still `"Unknown"`.  This definition follows the spec's words, for
comparison with `statusStep` which follows the source. -/
def statusStepFirstWins (st : ListenerState) (s : String) : ListenerState :=
  if s = "running" then st
  else if s = "completed" then
    { st with finalStatus := if st.finalStatus = "Unknown" then "completed"
                             else st.finalStatus }
  else if s = "error" then
    { st with finalStatus := if st.finalStatus = "Unknown" then "error"
                             else st.finalStatus }
  else if s = "finished_processing" then
    { st with processFinished := true,
              finalStatus := if st.finalStatus = "Unknown" then "completed"
                             else st.finalStatus }
  else st

/-- `final_status` under the spec's first-write-wins reading. -/
def finalStatusFirstWins (es : List Event) : String :=
  (es.foldl (fun st e =>
    match e with
    | .status _ s => statusStepFirstWins st s
    | _ => st) initListener).finalStatus

/-- The last explicit terminal outcome (`completed`/`error`) in a
message list, if any. -/
def lastOutcome : List Event → Option String
  | [] => none
  | e :: es =>
    match lastOutcome es with
    | some s => some s
    | none =>
      match e with
      | .status _ "completed" => some "completed"
      | .status _ "error" => some "error"
      | _ => none

/-- Whether a `finished_processing` status occurs in the list. -/
def hasFinished (es : List Event) : Bool :=
  es.any (fun e =>
    match e with
    | .status _ s => s = "finished_processing"
    | _ => false)

/-- The state change one message causes (only status messages touch the
listener's state when a header is present). -/
def statusApply (st : ListenerState) : Event → ListenerState
  | .status _ s => statusStep st s
  | _ => st

theorem statusStep_stopSet (st : ListenerState) (s : String) :
    (statusStep st s).stopSet = st.stopSet := by
  unfold statusStep
  split_ifs <;> rfl

theorem listenerConsume_sends (ph : String) (st : ListenerState) (es : List Event)
    (hstop : st.stopSet = false) (hnb : noBadDisplay es = true) :
    (listenerConsume (some ph) st es).2.1 = es.filterMap (sendOf ph) := by
  induction es generalizing st with
  | nil => rfl
  | cons e es ih =>
    cases e with
    | stream k tid t =>
      have hnes : noBadDisplay es = true := by simpa [noBadDisplay] using hnb
      simp [listenerConsume, hstop, listenerMsgStep, sendOf, ih st hstop hnes]
    | displayData tid p =>
      cases p with
      | good d m =>
        have hnes : noBadDisplay es = true := by simpa [noBadDisplay] using hnb
        simp [listenerConsume, hstop, listenerMsgStep, sendOf, payloadLoads,
          ih st hstop hnes]
      | bad err => simp [noBadDisplay] at hnb
    | status tid s =>
      have hnes : noBadDisplay es = true := by simpa [noBadDisplay] using hnb
      have hstop' : (statusStep st s).stopSet = false := by
        rw [statusStep_stopSet]
        exact hstop
      simp [listenerConsume, hstop, listenerMsgStep, sendOf,
        ih (statusStep st s) hstop' hnes]

theorem listenerConsume_state (ph : String) (st : ListenerState) (es : List Event)
    (hstop : st.stopSet = false) (hnb : noBadDisplay es = true) :
    (listenerConsume (some ph) st es).1 = es.foldl statusApply st := by
  induction es generalizing st with
  | nil => rfl
  | cons e es ih =>
    cases e with
    | stream k tid t =>
      have hnes : noBadDisplay es = true := by simpa [noBadDisplay] using hnb
      simpa [listenerConsume, hstop, listenerMsgStep, statusApply]
        using ih st hstop hnes
    | displayData tid p =>
      cases p with
      | good d m =>
        have hnes : noBadDisplay es = true := by simpa [noBadDisplay] using hnb
        simpa [listenerConsume, hstop, listenerMsgStep, payloadLoads, statusApply]
          using ih st hstop hnes
      | bad err => simp [noBadDisplay] at hnb
    | status tid s =>
      have hnes : noBadDisplay es = true := by simpa [noBadDisplay] using hnb
      have hstop' : (statusStep st s).stopSet = false := by
        rw [statusStep_stopSet]
        exact hstop
      simpa [listenerConsume, hstop, listenerMsgStep, statusApply]
        using ih (statusStep st s) hstop' hnes

theorem listenerConsume_none_state (st : ListenerState) (es : List Event) :
    (listenerConsume none st es).1 = st := by
  induction es generalizing st with
  | nil => rfl
  | cons e es ih =>
    by_cases hs : st.stopSet
    · simp [listenerConsume, hs]
    · cases e with
      | stream k tid t =>
        cases k <;> simpa [listenerConsume, hs, listenerMsgStep] using ih st
      | displayData tid p =>
        cases p with
        | good d m =>
          simpa [listenerConsume, hs, listenerMsgStep, payloadLoads] using ih st
        | bad err =>
          simpa [listenerConsume, hs, listenerMsgStep, payloadLoads] using ih st
      | status tid s => simpa [listenerConsume, hs, listenerMsgStep] using ih st

theorem foldl_statusApply_processFinished (st : ListenerState) (es : List Event) :
    (es.foldl statusApply st).processFinished =
      (st.processFinished || hasFinished es) := by
  induction es generalizing st with
  | nil => simp [hasFinished]
  | cons e es ih =>
    cases e with
    | stream k tid t => simp [statusApply, hasFinished, ih]
    | displayData tid p => simp [statusApply, hasFinished, ih]
    | status tid s =>
      rw [List.foldl_cons, ih]
      by_cases h1 : s = "running"
      · simp [statusApply, statusStep, h1, hasFinished]
      · by_cases h2 : s = "completed"
        · simp [statusApply, statusStep, h1, h2, hasFinished]
        · by_cases h3 : s = "error"
          · simp [statusApply, statusStep, h1, h2, h3, hasFinished]
          · by_cases h4 : s = "finished_processing"
            · simp [statusApply, statusStep, h1, h2, h3, h4, hasFinished]
            · simp [statusApply, statusStep, h1, h2, h3, h4, hasFinished]

theorem foldl_statusApply_finalStatus (st : ListenerState) (es : List Event) :
    (es.foldl statusApply st).finalStatus =
      ((lastOutcome es).getD
        (if hasFinished es then
          (if st.finalStatus = "Unknown" then "completed" else st.finalStatus)
        else st.finalStatus)) := by
  induction es generalizing st with
  | nil => simp [lastOutcome, hasFinished]
  | cons e es ih =>
    cases e with
    | stream k tid t =>
      simp [statusApply, lastOutcome, hasFinished, ih]
      cases lastOutcome es <;> rfl
    | displayData tid p =>
      simp [statusApply, lastOutcome, hasFinished, ih]
      cases lastOutcome es <;> rfl
    | status tid s =>
      rw [List.foldl_cons, ih]
      by_cases h1 : s = "running"
      · subst h1; simp [statusApply, statusStep, lastOutcome, hasFinished]
        cases lastOutcome es <;> rfl
      · by_cases h2 : s = "completed"
        · subst h2
          cases hlo : lastOutcome es with
          | some v => simp [statusApply, statusStep, lastOutcome, hasFinished, hlo]
          | none => simp [statusApply, statusStep, lastOutcome, hasFinished, hlo]
        · by_cases h3 : s = "error"
          · subst h3
            cases hlo : lastOutcome es with
            | some v => simp [statusApply, statusStep, lastOutcome, hasFinished, hlo]
            | none => simp [statusApply, statusStep, lastOutcome, hasFinished, hlo]
          · by_cases h4 : s = "finished_processing"
            · subst h4
              cases hlo : lastOutcome es with
              | some v =>
                simp [statusApply, statusStep, lastOutcome, hasFinished, hlo]
              | none =>
                by_cases hU : st.finalStatus = "Unknown"
                · simp [statusApply, statusStep, lastOutcome, hasFinished, hlo, hU]
                · simp [statusApply, statusStep, lastOutcome, hasFinished, hlo, hU]
            · have hs : statusStep st s = st := by
                simp [statusStep, h1, h2, h3, h4]
              have hlo : lastOutcome (Event.status tid s :: es) = lastOutcome es := by
                simp only [lastOutcome]
                cases lastOutcome es with
                | some v => rfl
                | none =>
                  cases p : Event.status tid s with
                  | status tid' s' =>
                    cases p
                    simp only []
                    split
                    · rename_i heq; injection heq with _ hv; exact absurd hv h2
                    · rename_i heq; injection heq with _ hv; exact absurd hv h3
                    · rfl
                  | stream _ _ _ => rfl
                  | displayData _ _ => rfl
              rw [hlo]
              simp [statusApply, hs, hasFinished, h4]

/-- C4 counterexample: event forwarding is not unconditional.  A display
payload that fails to deserialize kills the listener — the except
handler references the never-imported `traceback` module, raising
`NameError`, and the loop's outer except sets the stop flag and breaks —
so neither that event nor any event after it is forwarded: on the trace
stdout "a", bad payload, stdout "b" the sink receives only the send for
"a", not the three-in-order sends the claim requires. -/
theorem event_forwarding_stops_at_bad_payload :
    (listenerConsume (some "ph") initListener
      [.stream .stdout "t" "a", .displayData "t" (.bad "boom"),
       .stream .stdout "t" "b"]).2.1 = [.stream .stdout "a" "ph"] ∧
    (listenerConsume (some "ph") initListener
      [.stream .stdout "t" "a", .displayData "t" (.bad "boom"),
       .stream .stdout "t" "b"]).1.finalStatus = "listener_error" ∧
    (listenerConsume (some "ph") initListener
      [.stream .stdout "t" "a", .displayData "t" (.bad "boom"),
       .stream .stdout "t" "b"]).1.stopSet = true ∧
    [Send.stream .stdout "a" "ph"] ≠
      [Send.stream .stdout "a" "ph", Send.stream .stdout "b" "ph"] := by
  refine ⟨rfl, rfl, rfl, by decide⟩

/-- C4 amended: per-task event ordering is preserved end-to-end for
every trace in which all display payloads deserialize.  The per-task
queue is FIFO (producer `put` order is the list order), and with a
correlation token the listener forwards each stream and decodable
display event as exactly one session send, so the sink receives the
sends as the order-preserving image of the worker's events; in
particular a worker that emits stdout "a", stdout "b", then a display
payload causes three sink sends correlated to that task in that exact
order.  An undecodable display payload instead kills the listener and
forwarding stops there (see the counterexample). -/
theorem per_task_event_order_preserved (ph tid : String)
    (es : List Event) (d m : List (String × String)) (a b : String)
    (hnb : noBadDisplay es = true) :
    (listenerConsume (some ph) initListener es).2.1 =
      es.filterMap (sendOf ph) ∧
    (listenerConsume (some ph) initListener
      [.stream .stdout tid a, .stream .stdout tid b,
       .displayData tid (.good d m)]).2.1 =
      [.stream .stdout a ph, .stream .stdout b ph, .display d m ph] := by
  refine ⟨listenerConsume_sends ph initListener es rfl hnb, ?_⟩
  rfl

/-- Witness for the amended C4 ordering theorem on a concrete
one-event trace. -/
theorem per_task_event_order_preserved_witness :
    noBadDisplay [Event.stream .stdout "t" "a"] = true ∧
    (listenerConsume (some "ph") initListener
      [Event.stream .stdout "t" "a"]).2.1 =
      [Event.stream .stdout "t" "a"].filterMap (sendOf "ph") :=
  ⟨by decide, (per_task_event_order_preserved "ph" "t"
    [Event.stream .stdout "t" "a"] [] [] "a" "b" (by decide)).1⟩

/-- C5 counterexample: the listener's final-outcome flag is not
first-write-wins.  On the message sequence `completed`, `error`,
`finished_processing` the source's listener ends with outcome
`"error"` (the later conflicting terminal status overwrote the first),
while the first-write-wins rule stated by the claim yields
`"completed"`. -/
theorem final_outcome_not_first_write_wins :
    finalStatusAfter "ph"
      [.status "t" "completed", .status "t" "error",
       .status "t" "finished_processing"] = "error" ∧
    finalStatusFirstWins
      [.status "t" "completed", .status "t" "error",
       .status "t" "finished_processing"] = "completed" ∧
    ("error" : String) ≠ "completed" := by
  refine ⟨rfl, rfl, by decide⟩

/-- C5 amended: on every trace whose display payloads all deserialize,
the listener's final-outcome flag is last-write-wins — each
`completed`/`error` status event overwrites it, so the final value is
the last explicit terminal status received — and it defaults to
`completed` when a `finished_processing` arrived with no explicit
outcome (staying `"Unknown"` when neither arrived); a display payload
that fails to deserialize instead kills the listener with the flag
forced to `"listener_error"`, discarding any outcome events after it. -/
theorem final_outcome_last_write_wins (ph : String) (es : List Event) :
    (noBadDisplay es = true →
      finalStatusAfter ph es =
        ((lastOutcome es).getD
          (if hasFinished es then "completed" else "Unknown"))) ∧
    finalStatusAfter ph
      [.displayData "t" (.bad "boom"), .status "t" "completed",
       .status "t" "finished_processing"] = "listener_error" := by
  constructor
  · intro hnb
    unfold finalStatusAfter
    rw [listenerConsume_state ph initListener es rfl hnb,
      foldl_statusApply_finalStatus]
    simp [initListener]
  · rfl

/-- Witness for the amended C5 last-write-wins theorem on a concrete
two-outcome trace. -/
theorem final_outcome_last_write_wins_witness :
    noBadDisplay [Event.status "t" "completed", Event.status "t" "error"] =
      true ∧
    finalStatusAfter "ph"
      [Event.status "t" "completed", Event.status "t" "error"] = "error" := by
  refine ⟨by decide, ?_⟩
  rw [(final_outcome_last_write_wins "ph"
    [Event.status "t" "completed", Event.status "t" "error"]).1 (by decide)]
  rfl

/-- C9 counterexample: in the local-emission fallback (no parent
header), the listener skips status messages, so even after the worker
enqueued `finished_processing` and the channel drained, the completion
flag is never observed and the read-timeout branch does not transition
the listener to its finished state. -/
theorem listener_fallback_never_finishes :
    ((listenerConsume none initListener
        [.status "t" "finished_processing"]).1.processFinished = false) ∧
    ((listenerTimeoutStep
        (listenerConsume none initListener
          [.status "t" "finished_processing"]).1).stopSet = false) :=
  ⟨rfl, rfl⟩

/-- C9 amended: when a parent header is available and every display
payload in the backlog deserializes, once the worker's
`finished_processing` is consumed the listener observes the completion
flag and its next read timeout with the channel drained transitions it
to its finished state; without a header, processing messages leaves the
listener state untouched (status events are skipped), so termination
relies on the external stop signal instead.  (An undecodable display
payload in the backlog kills the listener before `finished_processing`
is ever read.) -/
theorem listener_finishes_with_header (ph tid : String) (es fs : List Event)
    (hnb : noBadDisplay es = true) :
    ((listenerConsume (some ph) initListener
        (es ++ [.status tid "finished_processing"])).1.processFinished = true) ∧
    ((listenerTimeoutStep
        (listenerConsume (some ph) initListener
          (es ++ [.status tid "finished_processing"])).1).stopSet = true) ∧
    ((listenerConsume none initListener fs).1 = initListener) := by
  have hnb' : noBadDisplay (es ++ [.status tid "finished_processing"]) = true := by
    rw [noBadDisplay, List.all_append]
    rw [noBadDisplay] at hnb
    simp [hnb]
  have hpf : (listenerConsume (some ph) initListener
      (es ++ [.status tid "finished_processing"])).1.processFinished = true := by
    rw [listenerConsume_state ph initListener _ rfl hnb',
      foldl_statusApply_processFinished]
    simp [hasFinished, initListener]
  refine ⟨hpf, ?_, listenerConsume_none_state _ _⟩
  simp [listenerTimeoutStep, hpf]

/-- Witness for the amended C9 termination theorem on a concrete
backlog. -/
theorem listener_finishes_with_header_witness :
    noBadDisplay ([] : List Event) = true ∧
    (listenerConsume (some "ph") initListener
      ([] ++ [Event.status "t" "finished_processing"])).1.processFinished =
      true :=
  ⟨by decide, (listener_finishes_with_header "ph" "t" [] [] (by decide)).1⟩

/-! ### Further association-list lemmas -/

theorem lookupA_eq_some_mem {κ α : Type} [DecidableEq κ] {l : List (κ × α)} {k : κ} {v : α}
    (h : lookupA l k = some v) : (k, v) ∈ l := by
  induction l with
  | nil => simp [lookupA] at h
  | cons p ps ih =>
    by_cases hp : p.1 = k
    · simp only [lookupA, hp, if_true, Option.some.injEq] at h
      have hpv : p = (k, v) := by cases p; simp_all
      rw [hpv]
      exact List.mem_cons_self _ _
    · simp only [lookupA, hp, if_false] at h
      exact List.mem_cons_of_mem _ (ih h)

theorem lookupA_eq_none_of_not_mem_keys {κ α : Type} [DecidableEq κ] {l : List (κ × α)} {k : κ}
    (h : k ∉ l.map Prod.fst) : lookupA l k = none := by
  induction l with
  | nil => rfl
  | cons p ps ih =>
    simp only [List.map_cons, List.mem_cons] at h
    push_neg at h
    have hne : p.1 ≠ k := fun hh => h.1 hh.symm
    simp [lookupA, hne, ih h.2]

theorem lookupA_isSome_mem_keys {κ α : Type} [DecidableEq κ] {l : List (κ × α)} {k : κ}
    (h : (lookupA l k).isSome) : k ∈ l.map Prod.fst := by
  by_contra hmem
  rw [lookupA_eq_none_of_not_mem_keys hmem] at h
  simp at h

theorem mem_lookupA_of_nodup {κ α : Type} [DecidableEq κ] {l : List (κ × α)} {k : κ} {v : α}
    (hnd : (l.map Prod.fst).Nodup) (h : (k, v) ∈ l) : lookupA l k = some v := by
  induction l with
  | nil => simp at h
  | cons p ps ih =>
    simp only [List.map_cons, List.nodup_cons] at hnd
    rcases List.mem_cons.mp h with h1 | h2
    · simp [lookupA, ← h1]
    · have hk : k ∈ ps.map Prod.fst := List.mem_map.mpr ⟨(k, v), h2, rfl⟩
      have hne : p.1 ≠ k := fun he => hnd.1 (he ▸ hk)
      simp [lookupA, hne, ih hnd.2 h2]

theorem lookupA_reverse_of_nodup {κ α : Type} [DecidableEq κ] {l : List (κ × α)} {k : κ}
    (hnd : (l.map Prod.fst).Nodup) : lookupA l.reverse k = lookupA l k := by
  cases h : lookupA l k with
  | some v =>
    have hm : (k, v) ∈ l.reverse := List.mem_reverse.mpr (lookupA_eq_some_mem h)
    have hnd' : (l.reverse.map Prod.fst).Nodup := by
      rw [List.map_reverse]; exact List.nodup_reverse.mpr hnd
    exact mem_lookupA_of_nodup hnd' hm
  | none =>
    have : k ∉ l.map Prod.fst := fun hm => by
      obtain ⟨p, hp, he⟩ := List.mem_map.mp hm
      have := mem_lookupA_of_nodup hnd (show (k, p.2) ∈ l by
        simpa [← he] using hp)
      simp [h] at this
    apply lookupA_eq_none_of_not_mem_keys
    intro hm
    rw [List.map_reverse, List.mem_reverse] at hm
    exact this hm

theorem keys_insertA {κ α : Type} [DecidableEq κ] (l : List (κ × α)) (k : κ) (v : α) :
    (insertA l k v).map Prod.fst =
      if containsKey l k then l.map Prod.fst else l.map Prod.fst ++ [k] := by
  unfold insertA
  by_cases h : containsKey l k
  · simp only [h, if_true, List.map_map]
    congr 1
    funext p
    by_cases hp : p.1 = k <;> simp [hp]
  · simp [h]

theorem nodup_keys_insertA {κ α : Type} [DecidableEq κ] {l : List (κ × α)} (k : κ) (v : α)
    (hnd : (l.map Prod.fst).Nodup) : ((insertA l k v).map Prod.fst).Nodup := by
  rw [keys_insertA]
  by_cases h : containsKey l k
  · simpa [h] using hnd
  · have hk : k ∉ l.map Prod.fst := by
      intro hm
      obtain ⟨p, hp, he⟩ := List.mem_map.mp hm
      have : lookupA l k = some p.2 := mem_lookupA_of_nodup hnd (by simpa [← he] using hp)
      simp [containsKey, this] at h
    simp [h, List.nodup_append, hk, hnd]

theorem nodup_keys_updateEnv {d1 d2 : Env}
    (hnd : (d1.map Prod.fst).Nodup) : ((updateEnv d1 d2).map Prod.fst).Nodup := by
  induction d2 generalizing d1 with
  | nil => exact hnd
  | cons p ps ih => exact ih (nodup_keys_insertA p.1 p.2 hnd)

/-! ### Coordinator session state: partitions and the caller's globals

`BackgroundMagics` keeps the caller-side variable state: `user_ns` is
the interactive shell's global environment and `_namespaces` the named
partitions populated by background runs. -/

/-- The caller-side variable state of `BackgroundMagics`. -/
structure SessionState where
  user_ns : Env
  namespaces : List (String × Env)
deriving DecidableEq, Repr

/-- `ipython_builtins_to_skip` from `BackgroundMagics.background`. -/
def ipythonBuiltinsToSkip : List String :=
  ["In", "Out", "get_ipython", "exit", "quit",
   "_", "__", "___", "_i", "_ii", "_iii", "_ih", "_oh", "_dh"]

/-- The key filter of the globals-capture loop: skip keys that start
with an underscore (other than `_`, `__`, `___`) or are listed IPython
builtins. -/
def globalSkip (k : String) : Bool :=
  (pyStartsWith k "_" && !(k = "_" || k = "__" || k = "___")) ||
    k ∈ ipythonBuiltinsToSkip

/-- The Environment Snapshot built by `BackgroundMagics.background`
(lines building `serializable_ns`): if a known partition is named, seed
from its entries (skipping only the IPython builtins); then layer the
caller's globals on top, skipping reserved names and values that fail
to pickle. -/
def build_serializable_ns (st : SessionState) (ns : Option String) : Env :=
  let seed : Env :=
    match ns with
    | some n =>
      match lookupA st.namespaces n with
      | some part =>
        part.foldl (fun acc p =>
          if p.1 ∈ ipythonBuiltinsToSkip then acc else insertA acc p.1 p.2) []
      | none => []
    | none => []
  st.user_ns.foldl (fun acc p =>
    if globalSkip p.1 then acc
    else if p.2.canPickle then insertA acc p.1 p.2 else acc) seed

/-- The variables read back out of the shared result map by
`_handle_variable_transfer`: all keys that do not start with `__`
(and are not the sentinel). -/
def transferredVarsOf (rd : Env) : Env :=
  rd.filter (fun p => !(pyStartsWith p.1 "__") && p.1 != "__transfer_complete__")

/-- `BackgroundMagics._handle_variable_transfer`, merge-and-signal
part: given the namespace argument of the submission and the contents
of the shared result map once the worker is done, produce the new
session state and whether the task's `transfer_complete` event was
set.  If nothing came back: warn and signal.  If a namespace was
named: merge into that partition (the source returns without touching
the event in this branch).  Otherwise merge into the caller's globals
and signal. -/
def handle_variable_transfer (ns : Option String) (rd : Env) (st : SessionState) :
    SessionState × Bool :=
  let tv := transferredVarsOf rd
  if tv.isEmpty then (st, true)
  else
    match ns with
    | some n =>
      let part := (lookupA st.namespaces n).getD []
      ({ st with namespaces := insertA st.namespaces n (updateEnv part tv) }, false)
    | none => ({ st with user_ns := updateEnv st.user_ns tv }, true)

theorem lookupA_foldl_condInsert (cond : String × PyVal → Bool) (l : Env) (init : Env)
    (k : String) (hnd : (l.map Prod.fst).Nodup) :
    lookupA (l.foldl (fun acc p => if cond p then insertA acc p.1 p.2 else acc) init) k =
      (match lookupA l k with
       | some v => if cond (k, v) then some v else lookupA init k
       | none => lookupA init k) := by
  induction l generalizing init with
  | nil => simp [lookupA]
  | cons p ps ih =>
    obtain ⟨a, b⟩ := p
    simp only [List.map_cons, List.nodup_cons] at hnd
    rw [List.foldl_cons, ih _ hnd.2]
    by_cases hp : a = k
    · subst hp
      have hps : lookupA ps a = none :=
        lookupA_eq_none_of_not_mem_keys hnd.1
      rw [hps]
      simp only [lookupA, if_true]
      by_cases hc : cond (a, b)
      · simp [hc, lookupA_insertA_self]
      · simp [hc]
    · simp only [lookupA, hp, if_false]
      have hinit : lookupA (if cond (a, b) then insertA init a b else init) k =
          lookupA init k := by
        by_cases hc : cond (a, b)
        · simp [hc, lookupA_insertA_ne init a k b (fun h => hp h.symm)]
        · simp [hc]
      cases hl : lookupA ps k with
      | some v => rw [hinit]
      | none => rw [hinit]

theorem lookupA_foldl_condInsert_absent (cond : String × PyVal → Bool) (l : Env)
    (init : Env) (k : String) (h : ∀ p ∈ l, p.1 ≠ k) :
    lookupA (l.foldl (fun acc p => if cond p then insertA acc p.1 p.2 else acc) init) k =
      lookupA init k := by
  induction l generalizing init with
  | nil => rfl
  | cons p ps ih =>
    rw [List.foldl_cons, ih _ (fun q hq => h q (List.mem_cons_of_mem _ hq))]
    by_cases hc : cond p
    · simp [hc, lookupA_insertA_ne init p.1 k p.2
        (fun he => h p (List.mem_cons_self _ _) he.symm)]
    · simp [hc]

/-- C6 evaluation at the failing input: when a partition name is given
and the worker returned variables, `_handle_variable_transfer` returns
without setting the task's `transfer_complete` event (the `set()` call
lives only in the empty path and in the global-merge `else` branch),
while the empty path and the global path do signal it. -/
theorem transfer_event_not_signalled_for_partition :
    ((handle_variable_transfer (some "ns1")
        [("x", PyVal.int 100), ("__transfer_complete__", PyVal.boolv true)]
        ⟨[], []⟩).2 = false) ∧
    ((handle_variable_transfer none
        [("x", PyVal.int 100), ("__transfer_complete__", PyVal.boolv true)]
        ⟨[], []⟩).2 = true) ∧
    ((handle_variable_transfer (some "ns1")
        [("__transfer_complete__", PyVal.boolv true)]
        ⟨[], []⟩).2 = true) :=
  ⟨rfl, rfl, rfl⟩

/-- C7: partition isolation.  When a submission names a partition, the
returned variables are merged only into that partition: the caller's
globals are unchanged, other partitions are unchanged, every returned
variable is readable from the named partition, and a later submission
naming the same partition is seeded with the partition's values
(for keys the caller's globals do not shadow). -/
theorem partition_isolation (st : SessionState) (n : String) (rd : Env)
    (hne : (transferredVarsOf rd).isEmpty = false)
    (hndtv : (((transferredVarsOf rd)).map Prod.fst).Nodup)
    (hpart : ((((lookupA st.namespaces n).getD [])).map Prod.fst).Nodup) :
    ((handle_variable_transfer (some n) rd st).1.user_ns = st.user_ns) ∧
    (∀ m, m ≠ n →
      lookupA (handle_variable_transfer (some n) rd st).1.namespaces m =
        lookupA st.namespaces m) ∧
    (∀ k v, lookupA (transferredVarsOf rd) k = some v →
      lookupA ((lookupA (handle_variable_transfer (some n) rd st).1.namespaces n).getD [])
        k = some v) ∧
    (∀ k v,
      lookupA ((lookupA (handle_variable_transfer (some n) rd st).1.namespaces n).getD [])
        k = some v →
      k ∉ ipythonBuiltinsToSkip →
      (∀ p ∈ (handle_variable_transfer (some n) rd st).1.user_ns, p.1 ≠ k) →
      lookupA (build_serializable_ns (handle_variable_transfer (some n) rd st).1 (some n))
        k = some v) := by
  have hred : handle_variable_transfer (some n) rd st =
      (SessionState.mk st.user_ns
        (insertA st.namespaces n
          (updateEnv ((lookupA st.namespaces n).getD []) (transferredVarsOf rd))),
        false) := by
    cases st
    unfold handle_variable_transfer
    simp [hne]
  rw [hred]
  refine ⟨rfl, ?_, ?_, ?_⟩
  · intro m hm
    exact lookupA_insertA_ne _ _ _ _ hm
  · intro k v hv
    rw [lookupA_insertA_self]
    simp only [Option.getD_some]
    rw [lookupA_updateEnv, lookupA_reverse_of_nodup hndtv, hv]
    rfl
  · intro k v hv hskip huser
    rw [lookupA_insertA_self] at hv
    simp only [Option.getD_some] at hv
    unfold build_serializable_ns
    simp only [lookupA_insertA_self, Option.getD_some]
    have hstep : (fun (acc : Env) (p : String × PyVal) =>
        if globalSkip p.1 then acc
        else if p.2.canPickle then insertA acc p.1 p.2 else acc) =
        (fun acc p =>
          if (!globalSkip p.1 && p.2.canPickle) then insertA acc p.1 p.2 else acc) := by
      funext acc p
      by_cases h1 : globalSkip p.1
      · simp [h1]
      · by_cases h2 : p.2.canPickle <;> simp [h1, h2]
    have hseedstep : (fun (acc : Env) (p : String × PyVal) =>
        if p.1 ∈ ipythonBuiltinsToSkip then acc else insertA acc p.1 p.2) =
        (fun acc p =>
          if (!decide (p.1 ∈ ipythonBuiltinsToSkip)) then insertA acc p.1 p.2 else acc) := by
      funext acc p
      by_cases h1 : p.1 ∈ ipythonBuiltinsToSkip <;> simp [h1]
    rw [hstep, hseedstep,
      lookupA_foldl_condInsert_absent _ _ _ _ huser,
      lookupA_foldl_condInsert _ _ _ _ (nodup_keys_updateEnv hpart), hv]
    simp [hskip]

/-- Result map returned by a first background run `x = 100` targeting
partition `"ns1"`. -/
def demoRd1 : Env := [("x", PyVal.int 100), ("__transfer_complete__", PyVal.boolv true)]

/-- Result map returned by a second background run `x = 200` targeting
partition `"ns2"`. -/
def demoRd2 : Env := [("x", PyVal.int 200), ("__transfer_complete__", PyVal.boolv true)]

/-- Session state with empty globals and no partitions. -/
def demoSt0 : SessionState := ⟨[], []⟩

/-- Session state after the `"ns1"` transfer. -/
def demoSt1 : SessionState := (handle_variable_transfer (some "ns1") demoRd1 demoSt0).1

/-- Session state after the subsequent `"ns2"` transfer. -/
def demoSt2 : SessionState := (handle_variable_transfer (some "ns2") demoRd2 demoSt1).1

/-- Witness for C7 at the spec's own example: `x = 100` into `"ns1"`
then `x = 200` into `"ns2"` leaves the caller's globals without `x`,
each partition holds its own value, and the snapshot for a later
`"ns1"` submission is seeded with `x = 100`. -/
theorem partition_isolation_witness :
    ((transferredVarsOf demoRd2).isEmpty = false) ∧
    (demoSt2.user_ns = demoSt1.user_ns) ∧
    (lookupA demoSt2.namespaces "ns1" = lookupA demoSt1.namespaces "ns1") ∧
    (lookupA ((lookupA demoSt2.namespaces "ns2").getD []) "x" = some (PyVal.int 200)) ∧
    (demoSt2.user_ns = []) ∧
    (lookupA ((lookupA demoSt2.namespaces "ns1").getD []) "x" = some (PyVal.int 100)) ∧
    (lookupA (build_serializable_ns demoSt2 (some "ns1")) "x" = some (PyVal.int 100)) := by
  obtain ⟨h1, h2, h3, _h4⟩ :=
    partition_isolation demoSt1 "ns2" demoRd2 rfl (by decide) (by decide)
  exact ⟨rfl, h1, h2 "ns1" (by decide),
    h3 "x" (PyVal.int 200) (by decide), rfl, rfl, rfl⟩

/-! ### `_stop_task` teardown under fallible primitives

`BackgroundMagics._stop_task` pops the task, then inside one `try`
block signals the listener's stop event, terminates (and if needed
kills) the worker, joins the listener, and finally updates the status
display to "Task stopped (superseded)." — that update has its own
inner `try` whose failures are ignored, but it sits *after* the
process/thread calls inside the same outer `try`, whose `except`
merely prints.  Here each step may independently raise so the
exception flow can be examined. -/

/-- Which teardown steps raise, and the liveness the step checks see. -/
structure StopScenario where
  listenerAliveAtStart : Bool
  processAlive : Bool
  /-- worker still alive after `terminate()` + `join(timeout=0.5)` -/
  aliveAfterTerminate : Bool
  terminateRaises : Bool
  killRaises : Bool
  listenerAliveAtJoin : Bool
  listenerJoinRaises : Bool
  /-- the `display(...)` call of the status update itself raises -/
  displayRaises : Bool
deriving DecidableEq, Repr

/-- Observable outcome of the teardown block. -/
structure StopOutcome where
  stopEventSet : Bool
  /-- content written to the status display, if the update ran -/
  indicator : Option String
  /-- the outer `except` printed an error -/
  errorPrinted : Bool
deriving DecidableEq, Repr

/-- The final HTML `_stop_task` writes to the status display. -/
def supersededHtml (statusDisplayId : String) : String :=
  "<div id='" ++ statusDisplayId ++
    "' style='margin-bottom: 5px;'><i>Task stopped (superseded).</i></div>"

/-- The teardown block of `_stop_task`: an exception in terminate, kill
or the listener join aborts to the outer `except` (printing an error)
before reaching the status-display update; a failure of the display
call itself is swallowed by the inner `try`. -/
def stop_task_teardown (sc : StopScenario) (statusDisplayId : String) : StopOutcome :=
  let stopSet := sc.listenerAliveAtStart
  if sc.processAlive && sc.terminateRaises then
    { stopEventSet := stopSet, indicator := none, errorPrinted := true }
  else if sc.processAlive && sc.aliveAfterTerminate && sc.killRaises then
    { stopEventSet := stopSet, indicator := none, errorPrinted := true }
  else if sc.listenerAliveAtJoin && sc.listenerJoinRaises then
    { stopEventSet := stopSet, indicator := none, errorPrinted := true }
  else
    { stopEventSet := stopSet,
      indicator := if sc.displayRaises then none
                   else some (supersededHtml statusDisplayId),
      errorPrinted := false }

/-- Teardown scenario in which `process.terminate()` raises. -/
def demoStopScenario : StopScenario :=
  { listenerAliveAtStart := true, processAlive := true,
    aliveAfterTerminate := false, terminateRaises := true,
    killRaises := false, listenerAliveAtJoin := true,
    listenerJoinRaises := false, displayRaises := false }

/-- C8 counterexample: when terminating the worker raises, `_stop_task`
jumps to its outer `except` before the status-display update, so the
indicator is never set to the "stopped (superseded)" state — contrary
to the claim that it is updated regardless of how far teardown got. -/
theorem stop_indicator_skipped_on_terminate_error :
    demoStopScenario.terminateRaises = true ∧
    (stop_task_teardown demoStopScenario "sid").indicator = none ∧
    (stop_task_teardown demoStopScenario "sid").errorPrinted = true :=
  ⟨rfl, rfl, rfl⟩

/-- C8 amended: whenever the terminate, kill and listener-join steps of
`_stop_task` complete without raising and the display call itself
succeeds, the status indicator is updated to the terminal "stopped
(superseded)" state; if one of those steps raises, the source skips the
update and prints the error instead. -/
theorem stop_indicator_updated_on_clean_teardown (sc : StopScenario) (sid : String)
    (h1 : sc.terminateRaises = false) (h2 : sc.killRaises = false)
    (h3 : sc.listenerJoinRaises = false) (h4 : sc.displayRaises = false) :
    (stop_task_teardown sc sid).indicator = some (supersededHtml sid) ∧
    (stop_task_teardown sc sid).errorPrinted = false := by
  unfold stop_task_teardown
  simp [h1, h2, h3, h4]

/-- Witness for the amended C8 at a concrete clean-teardown scenario. -/
theorem stop_indicator_updated_witness :
    (stop_task_teardown
      ⟨true, true, true, false, false, true, false, false⟩ "sid").indicator =
        some (supersededHtml "sid") ∧
    (stop_task_teardown
      ⟨true, true, true, false, false, true, false, false⟩ "sid").errorPrinted = false :=
  stop_indicator_updated_on_clean_teardown
    ⟨true, true, true, false, false, true, false, false⟩ "sid" rfl rfl rfl rfl

/-! ### More Python string primitives (for the runner's source scan) -/

/-- Python whitespace stripped by `str.strip()` (ASCII fragment). -/
def isPyWs (c : Char) : Bool :=
  c = ' ' || c = '\t' || c = '\n' || c = '\r' || c = '\x0b' || c = '\x0c'

/-- `str.strip()`. -/
def pyTrim (s : String) : String :=
  String.mk (((s.data.dropWhile isPyWs).reverse.dropWhile isPyWs).reverse)

/-- `s[n:]` (character based, as in Python). -/
def pyDropStr (s : String) (n : Nat) : String :=
  String.mk (s.data.drop n)

/-- Worker for `str.split(sep)` with non-empty separator `c0 :: sepRest`;
`fuel` bounds the recursion depth so the definition stays structural
(and therefore evaluates by kernel reduction). -/
def splitCharsFuel (c0 : Char) (sepRest : List Char) :
    Nat → List Char → List Char → List (List Char)
  | 0, acc, rem => [acc.reverse ++ rem]
  | _ + 1, acc, [] => [acc.reverse]
  | fuel + 1, acc, d :: ds =>
    if charsLead (d :: ds) (c0 :: sepRest) then
      acc.reverse :: splitCharsFuel c0 sepRest fuel [] (List.drop sepRest.length ds)
    else
      splitCharsFuel c0 sepRest fuel (d :: acc) ds

/-- Python `s.split(sep)` for a non-empty separator. -/
def pySplit (s sep : String) : List String :=
  match sep.data with
  | [] => [s]
  | c :: cs => (splitCharsFuel c cs (s.data.length + 1) [] s.data).map String.mk

/-- Python `sub in s` (substring test) for non-empty `sub`. -/
def pyContains (s sub : String) : Bool :=
  (pySplit s sub).length ≥ 2

/-- Character allowed after the first position of a Python identifier
(ASCII fragment of `str.isidentifier`). -/
def pyIsIdentChar (c : Char) : Bool :=
  c.isAlphanum || c = '_'

/-- Python `s.isidentifier()` (ASCII fragment). -/
def pyIsIdentifier (s : String) : Bool :=
  match s.data with
  | [] => false
  | c :: cs => (c.isAlpha || c = '_') && cs.all pyIsIdentChar

/-! ### The runner's textual scan for assigned names

`run_code_in_background` scans the submitted source line by line for
assignment-like statements, `.append(` calls and `for`-loop targets,
accumulating `explicit_vars` and `loop_vars`. -/

/-- Add an element to a Python-set-as-list (first-insertion order,
no duplicates). -/
def addOnce (l : List String) (x : String) : List String :=
  if x ∈ l then l else l ++ [x]

/-- `set.update`. -/
def addAll (l : List String) (xs : List String) : List String :=
  xs.foldl addOnce l

/-- One line of the scan (lines 99–128 of `background_runner.py`). -/
def scanStep (acc : List String × List String) (rawLine : String) :
    List String × List String :=
  let line := pyTrim rawLine
  if line = "" || pyStartsWith line "#" then acc
  else if pyContains line "=" &&
      !(pyStartsWith line "if " || pyStartsWith line "for " ||
        pyStartsWith line "while " || pyStartsWith line "def " ||
        pyStartsWith line "class ") then
    let varPart := pyTrim ((pySplit line "=").headD "")
    let names := ((pySplit varPart ",").map pyTrim).filter
      (fun n => n ≠ "" && pyIsIdentifier n)
    (addAll acc.1 names, acc.2)
  else if pyContains line ".append(" then
    let hd := pyTrim ((pySplit line ".append(").headD "")
    if pyIsIdentifier hd then (addOnce acc.1 hd, acc.2) else acc
  else if pyStartsWith line "for " && pyContains line " in " then
    let varPart := pyTrim ((pySplit (pyDropStr line 4) " in ").headD "")
    let names := ((pySplit varPart ",").map pyTrim).filter
      (fun n => n ≠ "" && pyIsIdentifier n)
    (acc.1, addAll acc.2 names)
  else acc

/-- The scan over the whole source, with `loop_vars` folded into
`explicit_vars` at the end (line 131). -/
def explicitVarsOf (code : String) : List String :=
  let r := (pySplit code "\n").foldl scanStep ([], [])
  addAll r.1 r.2

/-- `important_vars` (line 97). -/
def importantVars : List String := ["res", "result", "i", "df", "data"]

/-! ### The worker entry point (`run_code_in_background`)

The worker is a pure trace generator over an execution scenario:
* `ctx` models the `serialized_context` argument — `noCtx` is Python
  `None` (aggregate serialization failed upstream), `blob` is a byte
  string whose deserialization either yields an environment or raises;
* `base` models `globals().copy()` of the runner module;
* `patchEnv`/`patchOut` model the optional matplotlib/plotly
  configuration sections, which only print stream events and install
  extra globals and whose effect depends on which libraries are
  importable in the host environment (the spec places backend patching
  out of scope as an independently-failable setup step);
* `execOut` models `exec(code_str, exec_globals)` under the redirected
  streams and injected display hooks: the events the user code emitted
  (streams and display payloads only — the queue handle itself is not
  visible to user code) and either the final environment or the
  formatted traceback of an unhandled fault.

The queue is the returned event list (FIFO put order); the Manager
dict is the returned `Env`.  Queue puts and Manager-dict writes are
treated as the reliable runtime primitives the design assumes. -/

/-- The `serialized_context` argument. -/
inductive CtxArg where
  | noCtx
  | blob (r : Except String Env)
deriving Repr

/-- An event user code can emit while `exec` runs (via the redirected
streams or the injected display hooks). -/
inductive WEvent where
  | stream (k : StreamKind) (text : String)
  | displayData (payload : Payload)
deriving DecidableEq, Repr

/-- Tag a worker-emitted event with the task id, as `QueueStream.write`
and `QueueDisplayPublisher.publish` do. -/
def wEventTo (tid : String) : WEvent → Event
  | .stream k t => .stream k tid t
  | .displayData p => .displayData tid p

/-- Outcome of `exec(code_str, exec_globals)`. -/
inductive ExecOutcome where
  | ok (emitted : List WEvent) (finalEnv : Env)
  | raised (emitted : List WEvent) (tb : String)
deriving DecidableEq, Repr

/-- The names excluded from `potentially_modified` and from the
collection loops (lines 361–362, 376–377, 398–399). -/
def runnerBlacklist : List String :=
  ["__builtins__", "contextlib", "QueueStream", "QueueDisplayPublisher",
   "traceback", "cloudpickle"]

/-- The runner-local `custom_publish_display_data` closure (closes over
the queue, hence not picklable). -/
def publishFnVal : PyVal := .obj false false "custom_publish_display_data"

/-- The runner-local `custom_display` closure. -/
def displayFnVal : PyVal := .obj false false "custom_display"

/-- The `IPython.display.HTML` class (a class: no `__spec__`;
cloudpickle pickles classes by reference). -/
def htmlClassVal : PyVal := .obj false true "HTML"

/-- The `IPython.display.Markdown` class. -/
def markdownClassVal : PyVal := .obj false true "Markdown"

/-- The `IPython.display.IFrame` class. -/
def iframeClassVal : PyVal := .obj false true "IFrame"

/-- The `IPython.display` module bound as `ipd`. -/
def ipdModuleVal : PyVal := .module "IPython.display"

/-- The hook injections of lines 145 and 167–171. -/
def injectHelpers (g : Env) : Env :=
  insertA (insertA (insertA (insertA (insertA (insertA g
    "publish_display_data" publishFnVal)
    "display" displayFnVal)
    "HTML" htmlClassVal)
    "Markdown" markdownClassVal)
    "IFrame" iframeClassVal)
    "ipd" ipdModuleVal

/-- `exec_globals` as of line 342 (`initial_var_keys` snapshot):
module globals, overlaid deserialized context, injected hooks, then
whatever the backend-patching sections installed. -/
def buildExecGlobals (base ctxEnv patchEnv : Env) : Env :=
  updateEnv (injectHelpers (updateEnv base ctxEnv)) patchEnv

/-- `type(value).__name__` on the value universe. -/
def pyTypeName : PyVal → String
  | .int _ => "int"
  | .str _ => "str"
  | .boolv _ => "bool"
  | .listv _ => "list"
  | .module _ => "module"
  | .obj _ _ tag => tag

/-- Lexicographic character-list order (Python string `<`). -/
def charListLe : List Char → List Char → Bool
  | [], _ => true
  | _ :: _, [] => false
  | c :: cs, d :: ds => if c = d then charListLe cs ds else decide (c < d)

/-- Python string `<=`. -/
def strLe (a b : String) : Bool := charListLe a.data b.data

/-- Insertion into a sorted list. -/
def insertSorted (x : String) : List String → List String
  | [] => [x]
  | y :: ys => if strLe x y then x :: y :: ys else y :: insertSorted x ys

/-- Python `sorted` on strings. -/
def sortStrings (l : List String) : List String := l.foldr insertSorted []

/-- The first collection loop (lines 374–393): explicitly assigned
names present in the final environment and outside the denylist are
always included — simple builtin types without a pickling trial,
other values only if they pickle; failures are recorded in
`skipped_vars` with a warning event.  The state is
`(serializable_globals, skipped_vars, events emitted by this loop)`. -/
def processExplicitKey (fe : Env) (tid : String)
    (st : Env × List String × List Event) (key : String) :
    Env × List String × List Event :=
  if containsKey fe key && !(key ∈ runnerBlacklist) then
    match lookupA fe key with
    | some v =>
      if v.isSimpleType then
        (insertA st.1 key v, st.2.1,
          st.2.2 ++ [.stream .stderr tid
            ("[Debug] Including simple variable: " ++ key ++ " (type: " ++
              pyTypeName v ++ ")\n")])
      else if v.canPickle then
        (insertA st.1 key v, st.2.1,
          st.2.2 ++ [.stream .stderr tid
            ("[Debug] Including explicitly assigned variable: " ++ key ++ "\n")])
      else
        (st.1, st.2.1 ++ [key],
          st.2.2 ++ [.stream .stderr tid
            ("[Warning] Cannot serialize explicitly assigned variable '" ++
              key ++ "'\n")])
    | none => st
  else st

/-- The second collection loop (lines 396–422) over
`vars_to_transfer`: skip explicit names (already processed), dunder
names and the denylist; `exec_globals[key]` on a name the user code
deleted raises `KeyError`, aborting the whole `try` body — the
`.error` case carries the events emitted so far by this loop and the
traceback text.  Module-like values are skipped silently, simple types
included without a trial, other values tried against the pickler. -/
def processOtherKeys (fe : Env) (tid : String) (explicit2 : List String) :
    List String → Env → List String → List Event →
    Except (List Event × String) (Env × List String × List Event)
  | [], sg, sk, evs => .ok (sg, sk, evs)
  | key :: rest, sg, sk, evs =>
    if key ∈ explicit2 || pyStartsWith key "__" || key ∈ runnerBlacklist then
      processOtherKeys fe tid explicit2 rest sg sk evs
    else
      match lookupA fe key with
      | none => .error (evs, "KeyError: '" ++ key ++ "'")
      | some v =>
        if is_module_or_unpicklable v then
          processOtherKeys fe tid explicit2 rest sg (sk ++ [key]) evs
        else if v.isSimpleType then
          processOtherKeys fe tid explicit2 rest (insertA sg key v) sk evs
        else if v.canPickle then
          processOtherKeys fe tid explicit2 rest (insertA sg key v) sk evs
        else
          processOtherKeys fe tid explicit2 rest sg (sk ++ [key])
            (evs ++ [.stream .stderr tid
              ("[Warning] Cannot serialize variable '" ++ key ++ "'\n")])

/-- The hand-off block (lines 425–454): write each collected variable
into the Manager dict, then the `__transfer_complete__` sentinel if
anything was written, and report.  Dict writes are the reliable
runtime primitive, so the per-key `except` and the outer
"Failed to process variables" handler are not exercised. -/
def transferBlock (tid : String) (sg : Env) (sk : List String) :
    Env × List Event :=
  let rd := updateEnv [] sg
  let succ := sg.map Prod.fst
  let rd' := if succ.isEmpty then rd
             else insertA rd "__transfer_complete__" (.boolv true)
  let evs1 :=
    if succ.isEmpty then
      [Event.stream .stderr tid
        "[Warning] No variables could be transferred to main process.\n"]
    else
      [Event.stream .stdout tid
        ("[Info] " ++ toString succ.length ++ " variables returned to main process.\n"),
       Event.stream .stdout tid
        ("[Info] Returned variables: " ++ String.intercalate ", " (succ.take 20) ++
          (if succ.length > 20 then " and " ++ toString (succ.length - 20) ++ " more"
           else "") ++ "\n")]
  let evs2 :=
    if sk.isEmpty then []
    else [Event.stream .stderr tid
      ("[Warning] Skipped non-transferable variables: " ++
        String.intercalate ", " sk ++ "\n")]
  (rd', evs1 ++ evs2)

/-- The environment the context blob deserializes to (empty when the
context was `None`). -/
def ctxEnvOf : CtxArg → Env
  | .blob (.ok env) => env
  | _ => []

/-- The collection-and-transfer phase (lines 355–454): run the explicit
loop, then the `vars_to_transfer` loop (whose `KeyError` propagates as
`.error`), then the hand-off block.  Returns the events this phase put
and, on success, the Manager-dict contents. -/
def collectAndTransfer (fe : Env) (taskId : String)
    (explicit2 varsToTransfer : List String) :
    Except (List Event × String) (Env × List Event) :=
  let st1 := explicit2.foldl (processExplicitKey fe taskId) ([], [], [])
  match processOtherKeys fe taskId explicit2 varsToTransfer st1.1 st1.2.1 [] with
  | .error (evs2, tb) => .error (st1.2.2 ++ evs2, tb)
  | .ok (sg, sk, evs2) =>
    .ok ((transferBlock taskId sg sk).1,
      st1.2.2 ++ evs2 ++ (transferBlock taskId sg sk).2)

/-- `run_code_in_background` as a trace generator: returns the queue
trace (in put order) and the final contents of the Manager dict.  The
final `finally:` put of `finished_processing` appears as the trailing
`++ [...]` of every branch. -/
def run_code_in_background (codeStr taskId : String) (ctx : CtxArg)
    (hasResultDict : Bool) (base patchEnv : Env)
    (patchOut : List (StreamKind × String)) (execOut : ExecOutcome) :
    List Event × Env :=
  match ctx with
  | .blob (.error e) =>
    ([.stream .stderr taskId ("Error deserializing context: " ++ e),
      .status taskId "error"] ++ [.status taskId "finished_processing"], [])
  | _ =>
    let ctxEnv : Env := ctxEnvOf ctx
    let ctxWarn : List Event :=
      match ctx with
      | .noCtx => [.stream .stderr taskId
          "[Warning] Global context serialization failed, running without it.\n"]
      | _ => []
    let explicitVars := explicitVarsOf codeStr
    let scanDebug : List Event :=
      if explicitVars.isEmpty then []
      else [.stream .stderr taskId
        ("[Debug] Detected variable assignments: " ++
          String.intercalate ", " explicitVars ++ "\n")]
    let g := buildExecGlobals base ctxEnv patchEnv
    let pre := ctxWarn ++ scanDebug ++
      patchOut.map (fun p => Event.stream p.1 taskId p.2)
    match execOut with
    | .raised emitted tb =>
      (pre ++ [.status taskId "running"] ++ emitted.map (wEventTo taskId) ++
        [.stream .stderr taskId tb, .status taskId "error"] ++
        [.status taskId "finished_processing"], [])
    | .ok emitted fe =>
      let initialKeys := keysOf g
      let impAdds := importantVars.filter
        (fun v => containsKey fe v && !(v ∈ initialKeys))
      let impEvents := impAdds.map (fun v => Event.stream .stderr taskId
        ("[Debug] Adding important variable: " ++ v ++ "\n"))
      let explicit2 := addAll explicitVars impAdds
      let base1 := pre ++ [.status taskId "running"] ++
        emitted.map (wEventTo taskId) ++ [.status taskId "completed"] ++ impEvents
      if hasResultDict then
        let finalKeys := keysOf fe
        let newKeys := finalKeys.filter (fun k => !(k ∈ initialKeys))
        let potentiallyModified := initialKeys.filter
          (fun k => !(k ∈ runnerBlacklist))
        let varsToTransfer := (newKeys ++ potentiallyModified).dedup
        let debugNew := [Event.stream .stderr taskId
          ("[Debug] New variables: " ++
            String.intercalate ", " ((sortStrings newKeys).take 20) ++ "\n")]
        match collectAndTransfer fe taskId explicit2 varsToTransfer with
        | .error (evs, tb) =>
          (base1 ++ debugNew ++ evs ++
            [.stream .stderr taskId tb, .status taskId "error"] ++
            [.status taskId "finished_processing"], [])
        | .ok (rd, evs) =>
          (base1 ++ debugNew ++ evs ++
            [.status taskId "finished_processing"], rd)
      else
        (base1 ++ [.status taskId "finished_processing"], [])

/-! ### Properties of the runner trace -/

/-- Terminal status events (`completed`/`error`) for a task. -/
def isTerminalStatus (tid : String) : Event → Bool
  | .status t s => t = tid && (s = "completed" || s = "error")
  | _ => false

/-- Number of terminal status events for a task in a trace. -/
def countTerminal (tid : String) (tr : List Event) : Nat :=
  tr.countP (isTerminalStatus tid)

/-- Stream events (never status). -/
def isStreamEvent : Event → Bool
  | .stream _ _ _ => true
  | _ => false

theorem countTerminal_append (tid : String) (a b : List Event) :
    countTerminal tid (a ++ b) = countTerminal tid a + countTerminal tid b := by
  simp [countTerminal, List.countP_append]

theorem countTerminal_nil (tid : String) : countTerminal tid [] = 0 := rfl

theorem countTerminal_singleton (tid : String) (e : Event) :
    countTerminal tid [e] = if isTerminalStatus tid e then 1 else 0 := by
  simp [countTerminal, List.countP_cons]

theorem countTerminal_ite (tid : String) (c : Prop) [Decidable c]
    (a b : List Event) :
    countTerminal tid (if c then a else b) =
      if c then countTerminal tid a else countTerminal tid b := by
  split <;> rfl

theorem countTerminal_of_stream (tid : String) {tr : List Event}
    (h : ∀ e ∈ tr, isStreamEvent e = true) : countTerminal tid tr = 0 := by
  unfold countTerminal
  rw [List.countP_eq_zero]
  intro e he
  have := h e he
  cases e with
  | stream k t s => simp [isTerminalStatus]
  | displayData t p => simp [isStreamEvent] at this
  | status t s => simp [isStreamEvent] at this

theorem countTerminal_map_wEvent (tid tid' : String) (ws : List WEvent) :
    countTerminal tid (ws.map (wEventTo tid')) = 0 := by
  unfold countTerminal
  rw [List.countP_eq_zero]
  intro e he
  obtain ⟨w, _, hw⟩ := List.mem_map.mp he
  cases w <;> simp [wEventTo] at hw <;> simp [← hw, isTerminalStatus]

theorem countTerminal_map_patch (tid tid' : String)
    (ps : List (StreamKind × String)) :
    countTerminal tid (ps.map (fun p => Event.stream p.1 tid' p.2)) = 0 := by
  apply countTerminal_of_stream
  intro e he
  obtain ⟨p, _, hp⟩ := List.mem_map.mp he
  simp [← hp, isStreamEvent]

theorem countTerminal_map_stream {α : Type} (tid : String) (f : α → Event)
    (hf : ∀ a, isStreamEvent (f a) = true) (l : List α) :
    countTerminal tid (l.map f) = 0 := by
  apply countTerminal_of_stream
  intro e he
  obtain ⟨a, _, ha⟩ := List.mem_map.mp he
  exact ha ▸ hf a

theorem processExplicitKey_events (fe : Env) (tid : String)
    (st : Env × List String × List Event) (key : String) :
    ∃ l, (processExplicitKey fe tid st key).2.2 = st.2.2 ++ l ∧
      ∀ e ∈ l, isStreamEvent e = true := by
  unfold processExplicitKey
  by_cases h1 : containsKey fe key && !(key ∈ runnerBlacklist)
  · rw [if_pos h1]
    cases hl : lookupA fe key with
    | none => exact ⟨[], by simp, by simp⟩
    | some v =>
      dsimp only
      by_cases h2 : v.isSimpleType
      · refine ⟨[.stream .stderr tid
          ("[Debug] Including simple variable: " ++ key ++ " (type: " ++
            pyTypeName v ++ ")\n")], ?_, ?_⟩
        · simp [h2]
        · intro e he
          simp only [List.mem_singleton] at he
          simp [he, isStreamEvent]
      · by_cases h3 : v.canPickle
        · refine ⟨[.stream .stderr tid
            ("[Debug] Including explicitly assigned variable: " ++ key ++ "\n")],
            ?_, ?_⟩
          · simp [h2, h3]
          · intro e he
            simp only [List.mem_singleton] at he
            simp [he, isStreamEvent]
        · refine ⟨[.stream .stderr tid
            ("[Warning] Cannot serialize explicitly assigned variable '" ++
              key ++ "'\n")], ?_, ?_⟩
          · simp [h2, h3]
          · intro e he
            simp only [List.mem_singleton] at he
            simp [he, isStreamEvent]
  · rw [if_neg h1]
    exact ⟨[], by simp, by simp⟩

theorem foldl_processExplicitKey_events (fe : Env) (tid : String)
    (keys : List String) (st : Env × List String × List Event)
    (h : ∀ e ∈ st.2.2, isStreamEvent e = true) :
    ∀ e ∈ (keys.foldl (processExplicitKey fe tid) st).2.2, isStreamEvent e = true := by
  induction keys generalizing st with
  | nil => exact h
  | cons key rest ih =>
    rw [List.foldl_cons]
    apply ih
    obtain ⟨l, hl, hstream⟩ := processExplicitKey_events fe tid st key
    rw [hl]
    intro e he
    rcases List.mem_append.mp he with h1 | h2
    · exact h e h1
    · exact hstream e h2

theorem processOtherKeys_events (fe : Env) (tid : String) (explicit2 : List String)
    (keys : List String) (sg : Env) (sk : List String) (evs : List Event)
    (h : ∀ e ∈ evs, isStreamEvent e = true) :
    (∀ sg' sk' evs', processOtherKeys fe tid explicit2 keys sg sk evs =
        .ok (sg', sk', evs') → ∀ e ∈ evs', isStreamEvent e = true) ∧
    (∀ evs' tb, processOtherKeys fe tid explicit2 keys sg sk evs =
        .error (evs', tb) → ∀ e ∈ evs', isStreamEvent e = true) := by
  induction keys generalizing sg sk evs with
  | nil =>
    constructor
    · intro sg' sk' evs' hres
      simp only [processOtherKeys, Except.ok.injEq, Prod.mk.injEq] at hres
      obtain ⟨_, _, h3⟩ := hres
      exact h3 ▸ h
    · intro evs' tb hres
      simp [processOtherKeys] at hres
  | cons key rest ih =>
    simp only [processOtherKeys]
    by_cases h1 : key ∈ explicit2 || pyStartsWith key "__" || key ∈ runnerBlacklist
    · rw [if_pos h1]
      exact ih sg sk evs h
    · rw [if_neg h1]
      cases hl : lookupA fe key with
      | none =>
        dsimp only
        constructor
        · intro sg' sk' evs' hres; simp at hres
        · intro evs' tb hres
          simp only [Except.error.injEq, Prod.mk.injEq] at hres
          exact hres.1 ▸ h
      | some v =>
        dsimp only
        by_cases h2 : is_module_or_unpicklable v
        · rw [if_pos h2]; exact ih sg (sk ++ [key]) evs h
        · rw [if_neg h2]
          by_cases h3 : v.isSimpleType
          · rw [if_pos h3]; exact ih (insertA sg key v) sk evs h
          · rw [if_neg h3]
            by_cases h4 : v.canPickle
            · rw [if_pos h4]; exact ih (insertA sg key v) sk evs h
            · rw [if_neg h4]
              apply ih
              intro e he
              rcases List.mem_append.mp he with ha | hb
              · exact h e ha
              · simp only [List.mem_singleton] at hb
                simp [hb, isStreamEvent]

theorem transferBlock_events (tid : String) (sg : Env) (sk : List String) :
    ∀ e ∈ (transferBlock tid sg sk).2, isStreamEvent e = true := by
  intro e he
  simp only [transferBlock] at he
  rcases List.mem_append.mp he with ha | hb
  · by_cases h1 : (sg.map Prod.fst).isEmpty
    · simp [h1] at ha
      simp [ha, isStreamEvent]
    · simp [h1] at ha
      rcases ha with ha | ha <;> simp [ha, isStreamEvent]
  · by_cases h2 : sk.isEmpty
    · simp [h2] at hb
    · simp [h2] at hb
      simp [hb, isStreamEvent]

theorem getLast?_concat_event (l : List Event) (e : Event) :
    (l ++ [e]).getLast? = some e := by
  rw [List.getLast?_append]
  rfl

/-- The trace of any worker execution ends with the `finally:` put of
`finished_processing` (shared helper for the end-of-stream claims). -/
theorem runner_trace_ends (codeStr taskId : String) (ctx : CtxArg)
    (hasResultDict : Bool) (base patchEnv : Env)
    (patchOut : List (StreamKind × String)) (execOut : ExecOutcome) :
    (run_code_in_background codeStr taskId ctx hasResultDict base patchEnv
      patchOut execOut).1.getLast? =
      some (.status taskId "finished_processing") := by
  cases ctx with
  | blob r =>
    cases r with
    | error e => exact getLast?_concat_event _ _
    | ok env =>
      simp only [run_code_in_background]
      cases execOut with
      | raised em tb => exact getLast?_concat_event _ _
      | ok em fe =>
        cases hasResultDict with
        | false => exact getLast?_concat_event _ _
        | true =>
          dsimp only
          rw [if_pos (show true = true from rfl)]
          split <;> exact getLast?_concat_event _ _
  | noCtx =>
    simp only [run_code_in_background]
    cases execOut with
    | raised em tb => exact getLast?_concat_event _ _
    | ok em fe =>
      cases hasResultDict with
      | false => exact getLast?_concat_event _ _
      | true =>
        dsimp only
        rw [if_pos (show true = true from rfl)]
        split <;> exact getLast?_concat_event _ _

theorem mem_keys_containsKey {κ α : Type} [DecidableEq κ] {l : List (κ × α)} {k : κ}
    (h : k ∈ l.map Prod.fst) : containsKey l k = true := by
  induction l with
  | nil => simp at h
  | cons p ps ih =>
    by_cases hp : p.1 = k
    · simp [containsKey, lookupA, hp]
    · simp only [List.map_cons, List.mem_cons] at h
      rcases h with h | h

      · exact absurd h.symm hp
      · simpa [containsKey, lookupA, hp] using ih h

theorem mem_keysOf_containsKey {κ α : Type} [DecidableEq κ] {l : List (κ × α)} {k : κ}
    (h : k ∈ keysOf l) : containsKey l k = true := by
  apply mem_keys_containsKey
  simpa [keysOf, List.mem_dedup] using h

theorem isTerminalStatus_stream (tid : String) (k : StreamKind) (t s : String) :
    isTerminalStatus tid (.stream k t s) = false := rfl

theorem isTerminalStatus_display (tid t : String) (p : Payload) :
    isTerminalStatus tid (.displayData t p) = false := rfl

theorem isTerminalStatus_status (tid t s : String) :
    isTerminalStatus tid (.status t s) =
      (decide (t = tid) && (decide (s = "completed") || decide (s = "error"))) := rfl

theorem countTerminal_cons (tid : String) (e : Event) (l : List Event) :
    countTerminal tid (e :: l) =
      (if isTerminalStatus tid e then 1 else 0) + countTerminal tid l := by
  simp [countTerminal, List.countP_cons]
  omega

theorem countTerminal_pair (tid : String) (a b : Event) :
    countTerminal tid [a, b] =
      (if isTerminalStatus tid a then 1 else 0) +
        (if isTerminalStatus tid b then 1 else 0) := by
  simp [countTerminal, List.countP_cons]
  omega

theorem countTerminal_map_stream_fn {α : Type} (tid t : String) (k : StreamKind)
    (f : α → String) (l : List α) :
    countTerminal tid (l.map (fun v => Event.stream k t (f v))) = 0 :=
  countTerminal_map_stream tid (fun v => Event.stream k t (f v)) (fun _ => rfl) l

/-- No `KeyError` abort: every processed key either gets skipped or is
still bound in the final environment. -/
theorem processOtherKeys_ne_error (fe : Env) (tid : String)
    (explicit2 keys : List String) (sg : Env) (sk : List String)
    (evs : List Event) (hall : ∀ k ∈ keys, containsKey fe k = true)
    (p : List Event × String) :
    processOtherKeys fe tid explicit2 keys sg sk evs ≠ .error p := by
  induction keys generalizing sg sk evs with
  | nil => simp [processOtherKeys]
  | cons key rest ih =>
    have hk : containsKey fe key = true := hall key (List.mem_cons_self _ _)
    have hrest : ∀ k ∈ rest, containsKey fe k = true :=
      fun k hk' => hall k (List.mem_cons_of_mem _ hk')
    simp only [processOtherKeys]
    by_cases h1 : key ∈ explicit2 || pyStartsWith key "__" || key ∈ runnerBlacklist
    · rw [if_pos h1]; exact ih _ _ _ hrest
    · rw [if_neg h1]
      cases hl : lookupA fe key with
      | none => simp [containsKey, hl] at hk
      | some v =>
        dsimp only
        by_cases h2 : is_module_or_unpicklable v
        · rw [if_pos h2]; exact ih _ _ _ hrest
        · rw [if_neg h2]
          by_cases h3 : v.isSimpleType
          · rw [if_pos h3]; exact ih _ _ _ hrest
          · rw [if_neg h3]
            by_cases h4 : v.canPickle
            · rw [if_pos h4]; exact ih _ _ _ hrest
            · rw [if_neg h4]; exact ih _ _ _ hrest

theorem collectAndTransfer_ne_error (fe : Env) (tid : String)
    (explicit2 keys : List String)
    (hall : ∀ k ∈ keys, containsKey fe k = true) (p : List Event × String) :
    collectAndTransfer fe tid explicit2 keys ≠ .error p := by
  simp only [collectAndTransfer]
  cases hres : processOtherKeys fe tid explicit2 keys
      (explicit2.foldl (processExplicitKey fe tid) ([], [], [])).1
      (explicit2.foldl (processExplicitKey fe tid) ([], [], [])).2.1 [] with
  | error q => exact absurd hres (processOtherKeys_ne_error _ _ _ _ _ _ _ hall q)
  | ok t =>
    obtain ⟨sg, sk, evs2⟩ := t
    simp

theorem collectAndTransfer_ok_stream {fe : Env} {tid : String}
    {explicit2 keys : List String} {rd : Env} {evs : List Event}
    (heq : collectAndTransfer fe tid explicit2 keys = .ok (rd, evs)) :
    ∀ e ∈ evs, isStreamEvent e = true := by
  simp only [collectAndTransfer] at heq
  cases hres : processOtherKeys fe tid explicit2 keys
      (explicit2.foldl (processExplicitKey fe tid) ([], [], [])).1
      (explicit2.foldl (processExplicitKey fe tid) ([], [], [])).2.1 [] with
  | error q =>
    obtain ⟨evs2, tb⟩ := q
    rw [hres] at heq
    simp at heq
  | ok t =>
    obtain ⟨sg, sk, evs2⟩ := t
    rw [hres] at heq
    simp only [Except.ok.injEq, Prod.mk.injEq] at heq
    obtain ⟨_, hevs⟩ := heq
    rw [← hevs]
    intro e he
    rcases List.mem_append.mp he with he1 | he2
    · rcases List.mem_append.mp he1 with ha | hb
      · exact foldl_processExplicitKey_events fe tid explicit2 ([], [], [])
          (by simp) e ha
      · exact (processOtherKeys_events fe tid explicit2 keys _ _ []
          (by simp)).1 sg sk evs2 hres e hb
    · exact transferBlock_events tid sg sk e he2

theorem collectAndTransfer_error_stream {fe : Env} {tid : String}
    {explicit2 keys : List String} {evs : List Event} {tb : String}
    (heq : collectAndTransfer fe tid explicit2 keys = .error (evs, tb)) :
    ∀ e ∈ evs, isStreamEvent e = true := by
  simp only [collectAndTransfer] at heq
  cases hres : processOtherKeys fe tid explicit2 keys
      (explicit2.foldl (processExplicitKey fe tid) ([], [], [])).1
      (explicit2.foldl (processExplicitKey fe tid) ([], [], [])).2.1 [] with
  | error q =>
    obtain ⟨evs2, tb2⟩ := q
    rw [hres] at heq
    simp only [Except.error.injEq, Prod.mk.injEq] at heq
    obtain ⟨hevs, _⟩ := heq
    rw [← hevs]
    intro e he
    rcases List.mem_append.mp he with ha | hb
    · exact foldl_processExplicitKey_events fe tid explicit2 ([], [], [])
        (by simp) e ha
    · exact (processOtherKeys_events fe tid explicit2 keys _ _ []
        (by simp)).2 evs2 tb2 hres e hb
  | ok t =>
    obtain ⟨sg, sk, evs2⟩ := t
    rw [hres] at heq
    simp at heq

/-- C2: for every execution of the worker entry point
`run_code_in_background` — normal completion, unhandled fault during
`exec`, or context-deserialization failure — the last event it
enqueues on the output channel for its task id is the status event
`finished_processing`, and no event for that task is enqueued after
it (it is the last element of the queue trace). -/
theorem finished_processing_is_last_event (codeStr taskId : String)
    (ctx : CtxArg) (hasResultDict : Bool) (base patchEnv : Env)
    (patchOut : List (StreamKind × String)) (execOut : ExecOutcome) :
    (run_code_in_background codeStr taskId ctx hasResultDict base patchEnv
      patchOut execOut).1.getLast? =
      some (.status taskId "finished_processing") :=
  runner_trace_ends codeStr taskId ctx hasResultDict base patchEnv patchOut execOut

/-- No `KeyError` abort of the collection phase: every binding tracked
at `initial_var_keys` time is still present in the final environment
(user code did not `del` a pre-existing global).  Trivial for a faulted
execution, which never reaches the collection phase. -/
def noCollectionFault (ctx : CtxArg) (base patchEnv : Env)
    (execOut : ExecOutcome) : Prop :=
  match execOut with
  | .ok _ fe =>
    ∀ k ∈ keysOf (buildExecGlobals base (ctxEnvOf ctx) patchEnv),
      containsKey fe k = true
  | .raised _ _ => True

instance noCollectionFaultDecidable (ctx : CtxArg) (base patchEnv : Env)
    (execOut : ExecOutcome) :
    Decidable (noCollectionFault ctx base patchEnv execOut) :=
  match execOut with
  | .ok _ fe =>
    inferInstanceAs (Decidable
      (∀ k ∈ keysOf (buildExecGlobals base (ctxEnvOf ctx) patchEnv),
        containsKey fe k = true))
  | .raised _ _ => inferInstanceAs (Decidable True)

theorem varsToTransfer_all_present (g fe : Env)
    (hncf : ∀ k ∈ keysOf g, containsKey fe k = true) :
    ∀ k ∈ ((keysOf fe).filter (fun k => !(k ∈ keysOf g)) ++
        (keysOf g).filter (fun k => !(k ∈ runnerBlacklist))).dedup,
      containsKey fe k = true := by
  intro k hk
  rw [List.mem_dedup] at hk
  rcases List.mem_append.mp hk with h | h
  · exact mem_keysOf_containsKey (List.mem_of_mem_filter h)
  · exact hncf k (List.mem_of_mem_filter h)

/-- The worker's `exec_globals` for a run with an empty deserialized
context and no backend patches: just the runner globals (modelled
empty) plus the injected helpers. -/
def demoRunnerGlobals : Env := buildExecGlobals [] [] []

/-- The final environment left by user code `del HTML`: the injected
`HTML` binding removed from `exec_globals`. -/
def delHtmlFinalEnv : Env := eraseKey demoRunnerGlobals "HTML"

/-- Queue trace of a worker that ran `del HTML` successfully with a
result map attached. -/
def delHtmlTrace : List Event :=
  (run_code_in_background "del HTML" "t1" (.blob (.ok [])) true [] [] []
    (.ok [] delHtmlFinalEnv)).1

/-- C3 counterexample: a worker whose code deletes a pre-existing
binding (`del HTML`) completes `exec` normally — `completed` is
enqueued — and then the collection loop's `exec_globals[key]` raises
`KeyError`, so `error` is also enqueued: two terminal statuses precede
`finished_processing`, refuting "never both". -/
theorem both_terminal_statuses_enqueued :
    countTerminal "t1" delHtmlTrace = 2 ∧
    Event.status "t1" "completed" ∈ delHtmlTrace ∧
    Event.status "t1" "error" ∈ delHtmlTrace ∧
    delHtmlTrace.getLast? = some (.status "t1" "finished_processing") :=
  ⟨by decide, by decide, by decide, by decide⟩

/-- C3 amended: for any worker execution, at least one terminal status
(`completed` or `error`) is enqueued before `finished_processing`, and
it is exactly one provided the post-success collection phase does not
itself fault — i.e. unless the executed code removed a binding that
existed at `initial_var_keys` time, in which case `completed` and then
`error` are both enqueued. -/
theorem exactly_one_terminal_status (codeStr taskId : String) (ctx : CtxArg)
    (hasResultDict : Bool) (base patchEnv : Env)
    (patchOut : List (StreamKind × String)) (execOut : ExecOutcome)
    (h : noCollectionFault ctx base patchEnv execOut) :
    countTerminal taskId
      ((run_code_in_background codeStr taskId ctx hasResultDict base patchEnv
        patchOut execOut).1.dropLast) = 1 ∧
    (run_code_in_background codeStr taskId ctx hasResultDict base patchEnv
      patchOut execOut).1.getLast? =
      some (.status taskId "finished_processing") := by
  refine ⟨?_, runner_trace_ends _ _ _ _ _ _ _ _⟩
  cases ctx with
  | blob r =>
    cases r with
    | error e =>
      simp only [run_code_in_background]
      rw [List.dropLast_concat]
      simp [countTerminal_pair, countTerminal_cons, countTerminal_nil, isTerminalStatus_stream, isTerminalStatus_status]
    | ok env =>
      simp only [run_code_in_background]
      cases execOut with
      | raised em tb =>
        dsimp only
        rw [List.dropLast_concat]
        simp [countTerminal_append, countTerminal_pair, countTerminal_cons, countTerminal_nil,
          countTerminal_singleton, countTerminal_ite, countTerminal_map_wEvent,
          countTerminal_map_patch, isTerminalStatus_stream, isTerminalStatus_status]
      | ok em fe =>
        simp only [noCollectionFault] at h
        cases hasResultDict with
        | false =>
          dsimp only
          rw [if_neg (show ¬(false = true) by decide), List.dropLast_concat]
          simp [countTerminal_append, countTerminal_cons, countTerminal_nil, countTerminal_singleton,
            countTerminal_ite, countTerminal_map_wEvent, countTerminal_map_patch,
            countTerminal_map_stream_fn, isTerminalStatus_stream,
            isTerminalStatus_status]
        | true =>
          dsimp only
          rw [if_pos (show true = true from rfl)]
          split
          · next evs tb heq =>
            exact absurd heq (collectAndTransfer_ne_error _ _ _ _
              (varsToTransfer_all_present _ fe h) _)
          · next rd evs heq =>
            have hevs : countTerminal taskId evs = 0 :=
              countTerminal_of_stream _ (collectAndTransfer_ok_stream heq)
            rw [List.dropLast_concat]
            simp [countTerminal_append, countTerminal_cons, countTerminal_nil, countTerminal_singleton,
              countTerminal_ite, countTerminal_map_wEvent, countTerminal_map_patch,
              countTerminal_map_stream_fn, isTerminalStatus_stream,
              isTerminalStatus_status, hevs]
  | noCtx =>
    simp only [run_code_in_background]
    cases execOut with
    | raised em tb =>
      dsimp only
      rw [List.dropLast_concat]
      simp [countTerminal_append, countTerminal_pair, countTerminal_cons, countTerminal_nil,
        countTerminal_singleton, countTerminal_ite, countTerminal_map_wEvent,
        countTerminal_map_patch, isTerminalStatus_stream, isTerminalStatus_status]
    | ok em fe =>
      simp only [noCollectionFault] at h
      cases hasResultDict with
      | false =>
        dsimp only
        rw [if_neg (show ¬(false = true) by decide), List.dropLast_concat]
        simp [countTerminal_append, countTerminal_cons, countTerminal_nil, countTerminal_singleton,
          countTerminal_ite, countTerminal_map_wEvent, countTerminal_map_patch,
          countTerminal_map_stream_fn, isTerminalStatus_stream,
          isTerminalStatus_status]
      | true =>
        dsimp only
        rw [if_pos (show true = true from rfl)]
        split
        · next evs tb heq =>
          exact absurd heq (collectAndTransfer_ne_error _ _ _ _
            (varsToTransfer_all_present _ fe h) _)
        · next rd evs heq =>
          have hevs : countTerminal taskId evs = 0 :=
            countTerminal_of_stream _ (collectAndTransfer_ok_stream heq)
          rw [List.dropLast_concat]
          simp [countTerminal_append, countTerminal_cons, countTerminal_nil, countTerminal_singleton,
            countTerminal_ite, countTerminal_map_wEvent, countTerminal_map_patch,
            countTerminal_map_stream_fn, isTerminalStatus_stream,
            isTerminalStatus_status, hevs]

/-- Final environment of a worker that ran `x = 1`: `exec_globals`
plus the new binding. -/
def demoOkFinalEnv : Env := insertA demoRunnerGlobals "x" (.int 1)

/-- Witness for the amended C3 at a concrete fault-free run (`x = 1`):
the collection-fault hypothesis holds and exactly one terminal status
precedes the final `finished_processing`. -/
theorem exactly_one_terminal_status_witness :
    noCollectionFault (.blob (.ok [])) [] [] (.ok [] demoOkFinalEnv) ∧
    countTerminal "t2"
      ((run_code_in_background "x = 1" "t2" (.blob (.ok [])) true [] [] []
        (.ok [] demoOkFinalEnv)).1.dropLast) = 1 ∧
    (run_code_in_background "x = 1" "t2" (.blob (.ok [])) true [] [] []
      (.ok [] demoOkFinalEnv)).1.getLast? =
      some (.status "t2" "finished_processing") :=
  ⟨by decide,
    (exactly_one_terminal_status "x = 1" "t2" (.blob (.ok [])) true [] [] []
      (.ok [] demoOkFinalEnv) (by decide)).1,
    (exactly_one_terminal_status "x = 1" "t2" (.blob (.ok [])) true [] [] []
      (.ok [] demoOkFinalEnv) (by decide)).2⟩

/-! ### C10: which bindings flow back into the caller's environment -/

theorem containsKey_mem_keysOf {κ α : Type} [DecidableEq κ] {l : List (κ × α)} {k : κ}
    (h : containsKey l k = true) : k ∈ keysOf l := by
  simp only [keysOf, List.mem_dedup]
  exact lookupA_isSome_mem_keys (by simpa [containsKey] using h)

theorem processExplicitKey_lookup_ne (fe : Env) (tid : String)
    (st : Env × List String × List Event) (key k : String) (hne : key ≠ k) :
    lookupA (processExplicitKey fe tid st key).1 k = lookupA st.1 k := by
  unfold processExplicitKey
  by_cases h1 : containsKey fe key && !(key ∈ runnerBlacklist)
  · rw [if_pos h1]
    cases hl : lookupA fe key with
    | none => rfl
    | some v =>
      dsimp only
      by_cases h2 : v.isSimpleType
      · simp [h2, lookupA_insertA_ne st.1 key k v (fun h => hne h.symm)]
      · by_cases h3 : v.canPickle
        · simp [h2, h3, lookupA_insertA_ne st.1 key k v (fun h => hne h.symm)]
        · simp [h2, h3]
  · rw [if_neg h1]

theorem foldl_processExplicitKey_lookup_pres (fe : Env) (tid : String)
    (keys : List String) (st : Env × List String × List Event) (k : String)
    (h : ∀ key ∈ keys, key ≠ k) :
    lookupA (keys.foldl (processExplicitKey fe tid) st).1 k = lookupA st.1 k := by
  induction keys generalizing st with
  | nil => rfl
  | cons key rest ih =>
    rw [List.foldl_cons,
      ih _ (fun q hq => h q (List.mem_cons_of_mem _ hq)),
      processExplicitKey_lookup_ne fe tid st key k (h key (List.mem_cons_self _ _))]

theorem foldl_processExplicitKey_lookup (fe : Env) (tid : String)
    (keys : List String) (st : Env × List String × List Event)
    (k : String) (v : PyVal) (hk : k ∈ keys) (hv : lookupA fe k = some v)
    (hdeny : k ∉ runnerBlacklist) (hser : (v.isSimpleType || v.canPickle) = true) :
    lookupA (keys.foldl (processExplicitKey fe tid) st).1 k = some v := by
  induction keys generalizing st with
  | nil => simp at hk
  | cons key rest ih =>
    rw [List.foldl_cons]
    by_cases hkr : k ∈ rest
    · exact ih _ hkr
    · have hkey : key = k := by
        rcases List.mem_cons.mp hk with h | h
        · exact h.symm
        · exact absurd h hkr
      subst hkey
      rw [foldl_processExplicitKey_lookup_pres fe tid rest _ key
        (fun q hq he => hkr (he ▸ hq))]
      unfold processExplicitKey
      have hck : containsKey fe key = true := by simp [containsKey, hv]
      rw [if_pos (by simp [hck, hdeny]), hv]
      dsimp only
      by_cases h2 : v.isSimpleType
      · simp [h2, lookupA_insertA_self]
      · have h3 : v.canPickle = true := by
          rcases Bool.or_eq_true_iff.mp hser with h | h
          · exact absurd h (by simp [h2])
          · exact h
        simp [h2, h3, lookupA_insertA_self]

theorem processOtherKeys_lookup_pres (fe : Env) (tid : String)
    (explicit2 : List String) (keys : List String) (sg : Env) (sk : List String)
    (evs : List Event) (sg' : Env) (sk' : List String) (evs' : List Event)
    (k : String)
    (hres : processOtherKeys fe tid explicit2 keys sg sk evs = .ok (sg', sk', evs'))
    (hk : k ∈ explicit2 ∨ ∀ key ∈ keys, key ≠ k) :
    lookupA sg' k = lookupA sg k := by
  induction keys generalizing sg sk evs with
  | nil =>
    simp only [processOtherKeys, Except.ok.injEq, Prod.mk.injEq] at hres
    rw [← hres.1]
  | cons key rest ih =>
    have hk' : k ∈ explicit2 ∨ ∀ key ∈ rest, key ≠ k := by
      rcases hk with h | h
      · exact Or.inl h
      · exact Or.inr (fun q hq => h q (List.mem_cons_of_mem _ hq))
    simp only [processOtherKeys] at hres
    by_cases h1 : key ∈ explicit2 || pyStartsWith key "__" || key ∈ runnerBlacklist
    · rw [if_pos h1] at hres
      exact ih _ _ _ hres hk'
    · rw [if_neg h1] at hres
      have hne : key ≠ k := by
        intro he
        rcases hk with h | h
        · exact h1 (by simp [he, h])
        · exact h key (List.mem_cons_self _ _) he
      cases hl : lookupA fe key with
      | none => rw [hl] at hres; simp at hres
      | some v =>
        rw [hl] at hres
        dsimp only at hres
        by_cases h2 : is_module_or_unpicklable v
        · rw [if_pos h2] at hres
          exact ih _ _ _ hres hk'
        · rw [if_neg h2] at hres
          by_cases h3 : v.isSimpleType
          · rw [if_pos h3] at hres
            rw [ih _ _ _ hres hk',
              lookupA_insertA_ne sg key k v (fun h => hne h.symm)]
          · rw [if_neg h3] at hres
            by_cases h4 : v.canPickle
            · rw [if_pos h4] at hres
              rw [ih _ _ _ hres hk',
                lookupA_insertA_ne sg key k v (fun h => hne h.symm)]
            · rw [if_neg h4] at hres
              exact ih _ _ _ hres hk'

theorem processOtherKeys_lookup_incl (fe : Env) (tid : String)
    (explicit2 : List String) (keys : List String) (sg : Env) (sk : List String)
    (evs : List Event) (sg' : Env) (sk' : List String) (evs' : List Event)
    (k : String) (v : PyVal)
    (hres : processOtherKeys fe tid explicit2 keys sg sk evs = .ok (sg', sk', evs'))
    (hk : k ∈ keys) (hE : k ∉ explicit2) (hdund : pyStartsWith k "__" = false)
    (hdeny : k ∉ runnerBlacklist) (hv : lookupA fe k = some v)
    (hmod : is_module_or_unpicklable v = false)
    (hser : (v.isSimpleType || v.canPickle) = true) :
    lookupA sg' k = some v := by
  induction keys generalizing sg sk evs with
  | nil => simp at hk
  | cons key rest ih =>
    simp only [processOtherKeys] at hres
    by_cases hkr : k ∈ rest
    · by_cases h1 : key ∈ explicit2 || pyStartsWith key "__" || key ∈ runnerBlacklist
      · rw [if_pos h1] at hres
        exact ih _ _ _ hres hkr
      · rw [if_neg h1] at hres
        cases hl : lookupA fe key with
        | none => rw [hl] at hres; simp at hres
        | some w =>
          rw [hl] at hres
          dsimp only at hres
          by_cases h2 : is_module_or_unpicklable w
          · rw [if_pos h2] at hres; exact ih _ _ _ hres hkr
          · rw [if_neg h2] at hres
            by_cases h3 : w.isSimpleType
            · rw [if_pos h3] at hres; exact ih _ _ _ hres hkr
            · rw [if_neg h3] at hres
              by_cases h4 : w.canPickle
              · rw [if_pos h4] at hres; exact ih _ _ _ hres hkr
              · rw [if_neg h4] at hres; exact ih _ _ _ hres hkr
    · have hkey : key = k := by
        rcases List.mem_cons.mp hk with h | h
        · exact h.symm
        · exact absurd h hkr
      subst hkey
      have h1 : ¬(key ∈ explicit2 || pyStartsWith key "__" || key ∈ runnerBlacklist) := by
        simp [hE, hdund, hdeny]
      rw [if_neg h1, hv] at hres
      dsimp only at hres
      rw [if_neg (by simp [hmod])] at hres
      by_cases h3 : PyVal.isSimpleType v
      · rw [if_pos h3] at hres
        rw [processOtherKeys_lookup_pres fe tid explicit2 rest _ _ _ _ _ _ _ hres
          (Or.inr (fun q hq he => hkr (by rw [he] at hq; exact hq))),
          lookupA_insertA_self]
      · have h4 : PyVal.canPickle v = true := by
          rcases Bool.or_eq_true_iff.mp hser with h | h
          · exact absurd h (by simp [h3])
          · exact h
        rw [if_neg h3, if_pos h4] at hres
        rw [processOtherKeys_lookup_pres fe tid explicit2 rest _ _ _ _ _ _ _ hres
          (Or.inr (fun q hq he => hkr (by rw [he] at hq; exact hq))),
          lookupA_insertA_self]

theorem transferBlock_lookup (tid : String) (sg : Env) (sk : List String)
    (k : String) (v : PyVal) (hsg : lookupA sg k = some v)
    (hnd : (sg.map Prod.fst).Nodup) (hdund : pyStartsWith k "__" = false) :
    lookupA (transferBlock tid sg sk).1 k = some v := by
  have hkne : k ≠ "__transfer_complete__" := by
    intro he
    rw [he] at hdund
    exact absurd hdund (by decide)
  have hrd : lookupA (updateEnv [] sg) k = some v := by
    rw [lookupA_updateEnv, lookupA_reverse_of_nodup hnd, hsg]
    rfl
  simp only [transferBlock]
  by_cases hemp : (sg.map Prod.fst).isEmpty
  · cases sg with
    | nil => simp [lookupA] at hsg
    | cons p ps => simp at hemp
  · rw [if_neg hemp]
    rw [lookupA_insertA_ne _ _ _ _ hkne]
    exact hrd

theorem transferBlock_nodup (tid : String) (sg : Env) (sk : List String) :
    (((transferBlock tid sg sk).1).map Prod.fst).Nodup := by
  simp only [transferBlock]
  by_cases hemp : (sg.map Prod.fst).isEmpty
  · rw [if_pos hemp]
    exact nodup_keys_updateEnv (by simp)
  · rw [if_neg hemp]
    exact nodup_keys_insertA _ _ (nodup_keys_updateEnv (by simp))

theorem processExplicitKey_nodup (fe : Env) (tid : String)
    (st : Env × List String × List Event) (key : String)
    (h : (st.1.map Prod.fst).Nodup) :
    (((processExplicitKey fe tid st key).1).map Prod.fst).Nodup := by
  unfold processExplicitKey
  by_cases h1 : containsKey fe key && !(key ∈ runnerBlacklist)
  · rw [if_pos h1]
    cases hl : lookupA fe key with
    | none => exact h
    | some v =>
      dsimp only
      by_cases h2 : v.isSimpleType
      · simpa [h2] using nodup_keys_insertA key v h
      · by_cases h3 : v.canPickle
        · simpa [h2, h3] using nodup_keys_insertA key v h
        · simpa [h2, h3] using h
  · rw [if_neg h1]; exact h

theorem foldl_processExplicitKey_nodup (fe : Env) (tid : String)
    (keys : List String) (st : Env × List String × List Event)
    (h : (st.1.map Prod.fst).Nodup) :
    ((((keys.foldl (processExplicitKey fe tid) st)).1).map Prod.fst).Nodup := by
  induction keys generalizing st with
  | nil => exact h
  | cons key rest ih =>
    rw [List.foldl_cons]
    exact ih _ (processExplicitKey_nodup fe tid st key h)

theorem processOtherKeys_nodup (fe : Env) (tid : String)
    (explicit2 : List String) (keys : List String) (sg : Env) (sk : List String)
    (evs : List Event) (sg' : Env) (sk' : List String) (evs' : List Event)
    (hres : processOtherKeys fe tid explicit2 keys sg sk evs = .ok (sg', sk', evs'))
    (h : (sg.map Prod.fst).Nodup) : ((sg'.map Prod.fst)).Nodup := by
  induction keys generalizing sg sk evs with
  | nil =>
    simp only [processOtherKeys, Except.ok.injEq, Prod.mk.injEq] at hres
    exact hres.1 ▸ h
  | cons key rest ih =>
    simp only [processOtherKeys] at hres
    by_cases h1 : key ∈ explicit2 || pyStartsWith key "__" || key ∈ runnerBlacklist
    · rw [if_pos h1] at hres
      exact ih _ _ _ hres h
    · rw [if_neg h1] at hres
      cases hl : lookupA fe key with
      | none => rw [hl] at hres; simp at hres
      | some v =>
        rw [hl] at hres
        dsimp only at hres
        by_cases h2 : is_module_or_unpicklable v
        · rw [if_pos h2] at hres; exact ih _ _ _ hres h
        · rw [if_neg h2] at hres
          by_cases h3 : v.isSimpleType
          · rw [if_pos h3] at hres
            exact ih _ _ _ hres (nodup_keys_insertA key v h)
          · rw [if_neg h3] at hres
            by_cases h4 : v.canPickle
            · rw [if_pos h4] at hres
              exact ih _ _ _ hres (nodup_keys_insertA key v h)
            · rw [if_neg h4] at hres
              exact ih _ _ _ hres h

theorem collectAndTransfer_lookup {fe : Env} {tid : String}
    {E V : List String} {rd : Env} {evs : List Event} {k : String} {v : PyVal}
    (heq : collectAndTransfer fe tid E V = .ok (rd, evs))
    (hkV : k ∈ V ∨ k ∈ E)
    (hv : lookupA fe k = some v)
    (hdund : pyStartsWith k "__" = false) (hdeny : k ∉ runnerBlacklist)
    (hmod : is_module_or_unpicklable v = false)
    (hser : (v.isSimpleType || v.canPickle) = true) :
    lookupA rd k = some v ∧ ((rd.map Prod.fst)).Nodup := by
  simp only [collectAndTransfer] at heq
  cases hres : processOtherKeys fe tid E V
      (E.foldl (processExplicitKey fe tid) ([], [], [])).1
      (E.foldl (processExplicitKey fe tid) ([], [], [])).2.1 [] with
  | error q =>
    obtain ⟨evs2, tb⟩ := q
    rw [hres] at heq
    simp at heq
  | ok t =>
    obtain ⟨sg, sk, evs2⟩ := t
    rw [hres] at heq
    simp only [Except.ok.injEq, Prod.mk.injEq] at heq
    obtain ⟨hrd, _⟩ := heq
    have hsg : lookupA sg k = some v := by
      by_cases hex : k ∈ E
      · have h1 : lookupA ((E.foldl (processExplicitKey fe tid) ([], [], []))).1 k =
            some v :=
          foldl_processExplicitKey_lookup fe tid E ([], [], []) k v hex hv hdeny hser
        rw [processOtherKeys_lookup_pres fe tid E V _ _ _ _ _ _ _ hres (Or.inl hex)]
        exact h1
      · have hkV' : k ∈ V := by
          rcases hkV with h | h
          · exact h
          · exact absurd h hex
        exact processOtherKeys_lookup_incl fe tid E V _ _ _ _ _ _ _ _ hres hkV'
          hex hdund hdeny hv hmod hser
    have hnd : (sg.map Prod.fst).Nodup :=
      processOtherKeys_nodup fe tid E V _ _ _ _ _ _ hres
        (foldl_processExplicitKey_nodup fe tid E ([], [], []) (by simp))
    rw [← hrd]
    exact ⟨transferBlock_lookup tid sg sk k v hsg hnd hdund,
      transferBlock_nodup tid sg sk⟩

theorem merge_global_lookup (rd uns : Env) (nss : List (String × Env))
    (k : String) (v : PyVal)
    (hrd : lookupA rd k = some v) (hnd : (rd.map Prod.fst).Nodup)
    (hdund : pyStartsWith k "__" = false) :
    lookupA ((handle_variable_transfer none rd ⟨uns, nss⟩).1.user_ns) k = some v := by
  have hkne : k ≠ "__transfer_complete__" := by
    intro he
    rw [he] at hdund
    exact absurd hdund (by decide)
  have hmem : (k, v) ∈ transferredVarsOf rd := by
    apply List.mem_filter.mpr
    exact ⟨lookupA_eq_some_mem hrd, by simp [hdund, hkne]⟩
  have hndtv : ((transferredVarsOf rd).map Prod.fst).Nodup :=
    ((List.filter_sublist _).map Prod.fst).nodup hnd
  have htv : lookupA (transferredVarsOf rd) k = some v :=
    mem_lookupA_of_nodup hndtv hmem
  have hne : (transferredVarsOf rd).isEmpty = false := by
    cases htveq : transferredVarsOf rd with
    | nil => rw [htveq] at hmem; simp at hmem
    | cons a l => rfl
  simp only [handle_variable_transfer]
  rw [if_neg (by simp [hne])]
  dsimp only
  rw [lookupA_updateEnv, lookupA_reverse_of_nodup hndtv, htv]
  rfl

/-- The context blob, when present, deserializes successfully (the
deserialization-failure path returns before any execution). -/
def ctxDeserOk : CtxArg → Prop
  | .blob (.error _) => False
  | _ => True

instance ctxDeserOkDecidable (ctx : CtxArg) : Decidable (ctxDeserOk ctx) :=
  match ctx with
  | .blob (.error _) => inferInstanceAs (Decidable False)
  | .blob (.ok _) => inferInstanceAs (Decidable True)
  | .noCtx => inferInstanceAs (Decidable True)

/-- C10: when a result map is provided and execution succeeds, the
transferable set includes every pre-existing, serializable,
non-module, non-denylisted binding of the executor's environment —
in particular the helper names the runner itself injected before
execution and module-level names of the runner, all of which are in
`exec_globals` at `initial_var_keys` time — and the subsequent global
merge writes such a name into the caller's environment even though the
submitted source never assigned it. -/
theorem preexisting_bindings_transferred
    (codeStr taskId : String) (ctx : CtxArg) (base patchEnv : Env)
    (patchOut : List (StreamKind × String)) (em : List WEvent) (fe : Env)
    (uns : Env) (nss : List (String × Env)) (k : String) (v : PyVal)
    (hctx : ctxDeserOk ctx)
    (hpre : containsKey (buildExecGlobals base (ctxEnvOf ctx) patchEnv) k = true)
    (hval : lookupA fe k = some v)
    (hdund : pyStartsWith k "__" = false)
    (hdeny : k ∉ runnerBlacklist)
    (hmod : is_module_or_unpicklable v = false)
    (hser : (v.isSimpleType || v.canPickle) = true)
    (hfault : noCollectionFault ctx base patchEnv (.ok em fe)) :
    lookupA (run_code_in_background codeStr taskId ctx true base patchEnv
      patchOut (.ok em fe)).2 k = some v ∧
    lookupA ((handle_variable_transfer none
        (run_code_in_background codeStr taskId ctx true base patchEnv
          patchOut (.ok em fe)).2 ⟨uns, nss⟩).1.user_ns) k = some v := by
  have hmain : ∀ rd : Env,
      lookupA rd k = some v → ((rd.map Prod.fst)).Nodup →
      lookupA rd k = some v ∧
        lookupA ((handle_variable_transfer none rd ⟨uns, nss⟩).1.user_ns) k =
          some v :=
    fun rd h1 h2 => ⟨h1, merge_global_lookup rd uns nss k v h1 h2 hdund⟩
  have hkV : ∀ g : Env, containsKey g k = true →
      k ∈ ((keysOf fe).filter (fun k => !(k ∈ keysOf g)) ++
        (keysOf g).filter (fun k => !(k ∈ runnerBlacklist))).dedup := by
    intro g hg
    rw [List.mem_dedup]
    apply List.mem_append.mpr
    right
    exact List.mem_filter.mpr ⟨containsKey_mem_keysOf hg, by simp [hdeny]⟩
  cases ctx with
  | blob r =>
    cases r with
    | error e => exact absurd hctx (by simp [ctxDeserOk])
    | ok env =>
      simp only [noCollectionFault] at hfault
      simp only [run_code_in_background]
      simp only [if_true]
      split
      · next evs tb heq =>
        exact absurd heq (collectAndTransfer_ne_error _ _ _ _
          (varsToTransfer_all_present _ fe hfault) _)
      · next rd evs heq =>
        obtain ⟨h1, h2⟩ := collectAndTransfer_lookup heq
          (Or.inl (hkV _ hpre)) hval hdund hdeny hmod hser
        exact hmain rd h1 h2
  | noCtx =>
    simp only [noCollectionFault] at hfault
    simp only [run_code_in_background]
    simp only [if_true]
    split
    · next evs tb heq =>
      exact absurd heq (collectAndTransfer_ne_error _ _ _ _
        (varsToTransfer_all_present _ fe hfault) _)
    · next rd evs heq =>
      obtain ⟨h1, h2⟩ := collectAndTransfer_lookup heq
        (Or.inl (hkV _ hpre)) hval hdund hdeny hmod hser
      exact hmain rd h1 h2

/-- Witness for C10: a worker that ran `x = 1` (which never mentions
`HTML`) returns the runner-injected `HTML` class binding through the
shared map, and the global merge writes `HTML` into the caller's
environment. -/
theorem preexisting_bindings_transferred_witness :
    ("HTML" ∉ explicitVarsOf "x = 1") ∧
    (containsKey (buildExecGlobals [] (ctxEnvOf (.blob (.ok []))) []) "HTML" = true) ∧
    (lookupA (run_code_in_background "x = 1" "t3" (.blob (.ok [])) true [] [] []
      (.ok [] demoOkFinalEnv)).2 "HTML" = some htmlClassVal) ∧
    (lookupA ((handle_variable_transfer none
        (run_code_in_background "x = 1" "t3" (.blob (.ok [])) true [] [] []
          (.ok [] demoOkFinalEnv)).2 ⟨[], []⟩).1.user_ns) "HTML" =
      some htmlClassVal) :=
  ⟨by decide, by decide,
    (preexisting_bindings_transferred "x = 1" "t3" (.blob (.ok [])) [] [] [] []
      demoOkFinalEnv [] [] "HTML" htmlClassVal (by decide) (by decide) (by decide)
      (by decide) (by decide) (by decide) (by decide) (by decide)).1,
    (preexisting_bindings_transferred "x = 1" "t3" (.blob (.ok [])) [] [] [] []
      demoOkFinalEnv [] [] "HTML" htmlClassVal (by decide) (by decide) (by decide)
      (by decide) (by decide) (by decide) (by decide) (by decide)).2⟩

/-! ### Submission coordinator (`BackgroundMagics.background` / `_stop_task`)

The supersession-relevant state of `BackgroundMagics`:
`_background_tasks` (registry, task id → task record), the
`_cell_hash_to_task_id` fingerprint index, and the worker processes
ever spawned.  A worker process is identified by its position in the
spawn list (the registry stores the handle); `alive` is
`Process.is_alive()`.  Task ids are `bg_task_{counter}_{uuid8}`,
modelled as the pair (counter value, uuid suffix) — the counter
component is what makes ids fresh across rapid resubmission.
`terminate()`/`kill()` are the OS primitives the design assumes
available as-is: after the kill escalation the worker is dead. -/

/-- A task id `bg_task_{n}_{sfx}`. -/
abbrev TaskId := Nat × String

/-- The supersession-relevant part of a registry record. -/
structure Task where
  workerIdx : Nat
  cellHash : String
deriving DecidableEq, Repr

/-- A spawned worker process: its submission's fingerprint and whether
the process is alive. -/
structure Worker where
  fp : String
  alive : Bool
deriving DecidableEq, Repr

/-- Coordinator state. -/
structure Coord where
  tasks : List (TaskId × Task)
  hashIdx : List (String × TaskId)
  workers : List Worker
  counter : Nat
deriving DecidableEq, Repr

/-- Terminate (and, escalating, kill) the worker at an index. -/
def killAt : List Worker → Nat → List Worker
  | [], _ => []
  | w :: ws, 0 => ⟨w.fp, false⟩ :: ws
  | w :: ws, n + 1 => w :: killAt ws n

/-- `process.is_alive()` for the worker at an index (a missing handle
is not alive). -/
def workerAlive (ws : List Worker) (i : Nat) : Bool :=
  match ws.get? i with
  | some w => w.alive
  | none => false

/-- The reverse scan of `_stop_task`: remove the first fingerprint
entry mapping to the given task id (then `break`). -/
def eraseFirstVal : List (String × TaskId) → TaskId → List (String × TaskId)
  | [], _ => []
  | p :: ps, t => if p.2 = t then ps else p :: eraseFirstVal ps t

/-- `BackgroundMagics._stop_task`: pop the registry entry, drop the
fingerprint entry pointing at it, and terminate the worker if it is
still alive (the listener stop/join and the indicator update are
modelled separately, see the teardown section). -/
def stop_task (s : Coord) (tid : TaskId) : Coord :=
  match lookupA s.tasks tid with
  | none => s
  | some t =>
    { s with
      tasks := eraseKey s.tasks tid,
      hashIdx := eraseFirstVal s.hashIdx tid,
      workers := if workerAlive s.workers t.workerIdx then
                   killAt s.workers t.workerIdx
                 else s.workers }

/-- Registration part of `BackgroundMagics.background`: bump the
counter, spawn the worker, register the task and point the fingerprint
index at it. -/
def spawn (s1 : Coord) (h uuidSfx : String) : Coord :=
  let counter' := s1.counter + 1
  let tid : TaskId := (counter', uuidSfx)
  { tasks := insertA s1.tasks tid ⟨s1.workers.length, h⟩,
    hashIdx := insertA s1.hashIdx h tid,
    workers := s1.workers ++ [⟨h, true⟩],
    counter := counter' }

/-- `BackgroundMagics.background`: fingerprint the cell, supersede a
still-alive previous run of the same fingerprint (or clean up a stale
finished entry), then register and start the new task. -/
def background (sha1hex : String → String) (s : Coord) (cell uuidSfx : String) :
    Coord :=
  let h := sha1hex cell
  let s1 :=
    match lookupA s.hashIdx h with
    | none => s
    | some prevTid =>
      match lookupA s.tasks prevTid with
      | none => s
      | some pt =>
        if workerAlive s.workers pt.workerIdx then
          stop_task s prevTid
        else
          { s with tasks := eraseKey s.tasks prevTid,
                   hashIdx := eraseKey s.hashIdx h }
  spawn s1 h uuidSfx

/-- A worker process exiting on its own. -/
def workerExits (s : Coord) (i : Nat) : Coord :=
  { s with workers := killAt s.workers i }

/-- Indices of live workers carrying a given fingerprint. -/
def liveIdx (s : Coord) (f : String) : List Nat :=
  (List.range s.workers.length).filter
    (fun i => workerAlive s.workers i &&
      ((s.workers.get? i).map Worker.fp = some f))

/-- Number of live workers for a fingerprint. -/
def liveCount (s : Coord) (f : String) : Nat := (liveIdx s f).length

/-- Coordinator well-formedness: registry and fingerprint index are
key-distinct and in bijection, registered tasks point at workers of
their own fingerprint injectively, live workers are registered, and
task-id counters are bounded by the current counter. -/
def Inv (s : Coord) : Prop :=
  (s.tasks.map Prod.fst).Nodup ∧
  (s.hashIdx.map Prod.fst).Nodup ∧
  (s.hashIdx.map Prod.snd).Nodup ∧
  (∀ p ∈ s.hashIdx, ∃ q ∈ s.tasks, q.1 = p.2 ∧ q.2.cellHash = p.1) ∧
  (∀ q ∈ s.tasks, (q.2.cellHash, q.1) ∈ s.hashIdx) ∧
  (∀ q ∈ s.tasks, (s.workers.get? q.2.workerIdx).map Worker.fp =
    some q.2.cellHash) ∧
  (∀ q ∈ s.tasks, ∀ q' ∈ s.tasks, q.2.workerIdx = q'.2.workerIdx → q = q') ∧
  (∀ i ∈ List.range s.workers.length,
    workerAlive s.workers i = true → ∃ q ∈ s.tasks, q.2.workerIdx = i) ∧
  (∀ q ∈ s.tasks, q.1.1 ≤ s.counter)

instance invDecidable (s : Coord) : Decidable (Inv s) := by
  unfold Inv
  infer_instance

theorem killAt_length (ws : List Worker) (i : Nat) :
    (killAt ws i).length = ws.length := by
  induction ws generalizing i with
  | nil => rfl
  | cons w ws ih =>
    cases i with
    | zero => rfl
    | succ n => simp [killAt, ih]

theorem killAt_get?_ne (ws : List Worker) (i j : Nat) (hne : j ≠ i) :
    (killAt ws i).get? j = ws.get? j := by
  induction ws generalizing i j with
  | nil => rfl
  | cons w ws ih =>
    cases i with
    | zero =>
      cases j with
      | zero => exact absurd rfl hne
      | succ m => rfl
    | succ n =>
      cases j with
      | zero => rfl
      | succ m => simpa [killAt] using ih n m (fun he => hne (by rw [he]))

theorem killAt_get?_eq (ws : List Worker) (i : Nat) :
    (killAt ws i).get? i = (ws.get? i).map (fun w => ⟨w.fp, false⟩) := by
  induction ws generalizing i with
  | nil => rfl
  | cons w ws ih =>
    cases i with
    | zero => rfl
    | succ n => simpa [killAt] using ih n

theorem workerAlive_killAt_self (ws : List Worker) (i : Nat) :
    workerAlive (killAt ws i) i = false := by
  unfold workerAlive
  rw [killAt_get?_eq]
  cases ws.get? i <;> rfl

theorem workerAlive_killAt_ne (ws : List Worker) (i j : Nat) (hne : j ≠ i) :
    workerAlive (killAt ws i) j = workerAlive ws j := by
  unfold workerAlive
  rw [killAt_get?_ne ws i j hne]

theorem eraseFirstVal_sublist (l : List (String × TaskId)) (t : TaskId) :
    List.Sublist (eraseFirstVal l t) l := by
  induction l with
  | nil => exact List.Sublist.refl _
  | cons p ps ih =>
    by_cases hp : p.2 = t
    · simp only [eraseFirstVal, hp, if_true]
      exact List.sublist_cons_self _ _
    · simp only [eraseFirstVal, hp, if_false]
      exact List.Sublist.cons₂ p ih

theorem mem_eraseFirstVal (l : List (String × TaskId)) (t : TaskId)
    (hnd : (l.map Prod.snd).Nodup) (q : String × TaskId) :
    q ∈ eraseFirstVal l t ↔ q ∈ l ∧ q.2 ≠ t := by
  induction l with
  | nil => simp [eraseFirstVal]
  | cons p ps ih =>
    simp only [List.map_cons, List.nodup_cons] at hnd
    by_cases hp : p.2 = t
    · simp only [eraseFirstVal, hp, if_true]
      constructor
      · intro hq
        refine ⟨List.mem_cons_of_mem _ hq, ?_⟩
        intro he
        apply hnd.1
        rw [hp, ← he]
        exact List.mem_map.mpr ⟨q, hq, rfl⟩
      · intro ⟨hq, hqt⟩
        rcases List.mem_cons.mp hq with h | h
        · exact absurd (h ▸ hp) hqt
        · exact h
    · simp only [eraseFirstVal, hp, if_false]
      constructor
      · intro hq
        rcases List.mem_cons.mp hq with h | h
        · exact ⟨h ▸ List.mem_cons_self _ _, h ▸ hp⟩
        · obtain ⟨h1, h2⟩ := (ih hnd.2).mp h
          exact ⟨List.mem_cons_of_mem _ h1, h2⟩
      · intro ⟨hq, hqt⟩
        rcases List.mem_cons.mp hq with h | h
        · exact h ▸ List.mem_cons_self _ _
        · exact List.mem_cons_of_mem _ ((ih hnd.2).mpr ⟨h, hqt⟩)

theorem mem_eraseKey {κ α : Type} [DecidableEq κ] (l : List (κ × α)) (k : κ)
    (q : κ × α) : q ∈ eraseKey l k ↔ q ∈ l ∧ q.1 ≠ k := by
  simp [eraseKey, List.mem_filter]

theorem lookupA_eraseKey_self {κ α : Type} [DecidableEq κ] (l : List (κ × α))
    (k : κ) : lookupA (eraseKey l k) k = none := by
  apply lookupA_eq_none_of_not_mem_keys
  intro hm
  obtain ⟨p, hp, he⟩ := List.mem_map.mp hm
  exact ((mem_eraseKey l k p).mp hp).2 he

theorem insertA_of_not_contains {κ α : Type} [DecidableEq κ]
    {l : List (κ × α)} {k : κ} (v : α) (h : containsKey l k = false) :
    insertA l k v = l ++ [(k, v)] := by
  unfold insertA
  rw [h]
  rfl

theorem keys_unique {κ α : Type} [DecidableEq κ] {l : List (κ × α)}
    (hnd : (l.map Prod.fst).Nodup) {k : κ} {v1 v2 : α}
    (h1 : (k, v1) ∈ l) (h2 : (k, v2) ∈ l) : v1 = v2 := by
  have e1 := mem_lookupA_of_nodup hnd h1
  have e2 := mem_lookupA_of_nodup hnd h2
  rw [e1] at e2
  exact Option.some.inj e2

theorem vals_unique {κ α : Type} [DecidableEq α] {l : List (κ × α)}
    (hnd : (l.map Prod.snd).Nodup) {k1 k2 : κ} {v : α}
    (h1 : (k1, v) ∈ l) (h2 : (k2, v) ∈ l) : k1 = k2 := by
  induction l with
  | nil => simp at h1
  | cons p ps ih =>
    simp only [List.map_cons, List.nodup_cons] at hnd
    rcases List.mem_cons.mp h1 with ha | ha <;>
      rcases List.mem_cons.mp h2 with hb | hb
    · exact congrArg Prod.fst (ha.trans hb.symm)
    · exfalso
      apply hnd.1
      rw [show p.2 = v from (congrArg Prod.snd ha).symm]
      exact List.mem_map.mpr ⟨(k2, v), hb, rfl⟩
    · exfalso
      apply hnd.1
      rw [show p.2 = v from (congrArg Prod.snd hb).symm]
      exact List.mem_map.mpr ⟨(k1, v), ha, rfl⟩
    · exact ih hnd.2 ha hb

theorem nodup_length_le_one {l : List Nat} (hnd : l.Nodup)
    (h : ∀ a ∈ l, ∀ b ∈ l, a = b) : l.length ≤ 1 := by
  cases l with
  | nil => simp
  | cons a rest =>
    cases rest with
    | nil => simp
    | cons b r2 =>
      exfalso
      simp only [List.nodup_cons, List.mem_cons] at hnd
      have hab : a = b := h a (List.mem_cons_self _ _) b
        (List.mem_cons_of_mem _ (List.mem_cons_self _ _))
      exact hnd.1 (Or.inl hab)

theorem live_implies_task (s : Coord) (hInv : Inv s) (f : String) (i : Nat)
    (hi : i ∈ liveIdx s f) :
    ∃ q ∈ s.tasks, q.2.workerIdx = i ∧ q.2.cellHash = f := by
  obtain ⟨-, -, -, -, -, h6, -, h8, -⟩ := hInv
  simp only [liveIdx, List.mem_filter, List.mem_range] at hi
  obtain ⟨hrange, hcond⟩ := hi
  rw [Bool.and_eq_true] at hcond
  obtain ⟨halive, hfp⟩ := hcond
  rw [decide_eq_true_eq] at hfp
  obtain ⟨q, hq, hidx⟩ := h8 i (List.mem_range.mpr hrange) halive
  refine ⟨q, hq, hidx, ?_⟩
  have h6q := h6 q hq
  rw [hidx, hfp] at h6q
  exact (Option.some.inj h6q).symm

theorem liveCount_le_one (s : Coord) (hInv : Inv s) (f : String) :
    liveCount s f ≤ 1 := by
  have hInv' := hInv
  obtain ⟨h1, h2, -, -, h5, -, -, -, -⟩ := hInv'
  unfold liveCount
  apply nodup_length_le_one
  · exact (List.nodup_range _).filter _
  · intro a ha b hb
    obtain ⟨qa, hqa, hia, hfa⟩ := live_implies_task s hInv f a ha
    obtain ⟨qb, hqb, hib, hfb⟩ := live_implies_task s hInv f b hb
    have ha1 : (f, qa.1) ∈ s.hashIdx := by rw [← hfa]; exact h5 qa hqa
    have hb1 : (f, qb.1) ∈ s.hashIdx := by rw [← hfb]; exact h5 qb hqb
    have hv : qa.1 = qb.1 := keys_unique h2 ha1 hb1
    have hq : qa.2 = qb.2 := by
      have e1 := mem_lookupA_of_nodup h1
        (show (qa.1, qa.2) ∈ s.tasks by simpa using hqa)
      have e2 := mem_lookupA_of_nodup h1
        (show (qb.1, qb.2) ∈ s.tasks by simpa using hqb)
      rw [← hv, e1] at e2
      exact Option.some.inj e2
    rw [← hia, ← hib, hq]

theorem liveIdx_empty_of_hash_none (s : Coord) (hInv : Inv s) (f : String)
    (hnone : lookupA s.hashIdx f = none) : liveIdx s f = [] := by
  have hInv' := hInv
  obtain ⟨-, h2, -, -, h5, -, -, -, -⟩ := hInv'
  cases hl : liveIdx s f with
  | nil => rfl
  | cons i rest =>
    exfalso
    have hi : i ∈ liveIdx s f := by rw [hl]; exact List.mem_cons_self _ _
    obtain ⟨q, hq, -, hf⟩ := live_implies_task s hInv f i hi
    have hm : (f, q.1) ∈ s.hashIdx := by rw [← hf]; exact h5 q hq
    have := mem_lookupA_of_nodup h2 hm
    rw [hnone] at this
    exact Option.noConfusion this

theorem workerExits_Inv (s : Coord) (hInv : Inv s) (i : Nat) :
    Inv (workerExits s i) := by
  obtain ⟨h1, h2, h3, h4, h5, h6, h7, h8, h9⟩ := hInv
  refine ⟨h1, h2, h3, h4, h5, ?_, h7, ?_, h9⟩
  · intro q hq
    by_cases hqi : q.2.workerIdx = i
    · show ((killAt s.workers i).get? q.2.workerIdx).map Worker.fp = _
      rw [hqi, killAt_get?_eq]
      have h6q := h6 q hq
      rw [hqi] at h6q
      cases hg : s.workers.get? i with
      | none => rw [hg] at h6q; simp at h6q
      | some w =>
        rw [hg] at h6q
        simpa using h6q
    · show ((killAt s.workers i).get? q.2.workerIdx).map Worker.fp = _
      rw [killAt_get?_ne s.workers i q.2.workerIdx hqi]
      exact h6 q hq
  · intro j hj halive
    have hj' : j ∈ List.range s.workers.length := by
      simpa [workerExits, killAt_length] using hj
    by_cases hji : j = i
    · rw [hji] at halive
      rw [show (workerExits s i).workers = killAt s.workers i from rfl,
        workerAlive_killAt_self] at halive
      exact absurd halive (by simp)
    · rw [show (workerExits s i).workers = killAt s.workers i from rfl,
        workerAlive_killAt_ne s.workers i j hji] at halive
      exact h8 j hj' halive

theorem nodup_concat_of_not_mem {α : Type} {l : List α} {a : α}
    (hnd : l.Nodup) (ha : a ∉ l) : (l ++ [a]).Nodup := by
  simp [List.nodup_append, hnd, ha]

theorem mem_liveIdx_iff (s : Coord) (f : String) (i : Nat) :
    i ∈ liveIdx s f ↔ i < s.workers.length ∧ workerAlive s.workers i = true ∧
      (s.workers.get? i).map Worker.fp = some f := by
  simp [liveIdx, List.mem_filter, List.mem_range, Bool.and_eq_true,
    decide_eq_true_eq, and_assoc]

theorem idx_lt_of_workerFp {ws : List Worker} {i : Nat} {f : String}
    (h : (ws.get? i).map Worker.fp = some f) : i < ws.length := by
  by_contra hge
  rw [List.get?_eq_none.mpr (Nat.le_of_not_lt hge)] at h
  exact Option.noConfusion h

theorem workerAlive_append_lt (ws ws' : List Worker) (i : Nat)
    (hi : i < ws.length) : workerAlive (ws ++ ws') i = workerAlive ws i := by
  unfold workerAlive
  rw [List.get?_append hi]

/-- A live worker of fingerprint `h` must be the worker of the task
the fingerprint index points at. -/
theorem live_fp_is_prev (s : Coord) (hInv : Inv s) (h : String)
    (prevTid : TaskId) (pt : Task)
    (hlk : lookupA s.hashIdx h = some prevTid)
    (hlt : lookupA s.tasks prevTid = some pt) :
    ∀ i ∈ liveIdx s h, i = pt.workerIdx := by
  intro i hi
  have hInv' := hInv
  obtain ⟨h1, h2, -, -, h5, -, -, -, -⟩ := hInv'
  obtain ⟨q, hq, hidx, hf⟩ := live_implies_task s hInv h i hi
  have hm : (h, q.1) ∈ s.hashIdx := by rw [← hf]; exact h5 q hq
  have hq1 : q.1 = prevTid := keys_unique h2 hm (lookupA_eq_some_mem hlk)
  have hq2 : q.2 = pt := by
    have e := mem_lookupA_of_nodup h1
      (show (q.1, q.2) ∈ s.tasks by simpa using hq)
    rw [hq1, hlt] at e
    exact (Option.some.inj e).symm
  rw [← hidx, hq2]

/-- Stale-entry cleanup branch of `background`: the previous run
already finished, its registry and fingerprint entries are dropped. -/
theorem stale_cleanup_good (s : Coord) (hInv : Inv s) (h : String)
    (prevTid : TaskId) (pt : Task)
    (hlk : lookupA s.hashIdx h = some prevTid)
    (hlt : lookupA s.tasks prevTid = some pt)
    (hdead : workerAlive s.workers pt.workerIdx = false) :
    Inv (Coord.mk (eraseKey s.tasks prevTid) (eraseKey s.hashIdx h)
      s.workers s.counter) ∧
    liveIdx (Coord.mk (eraseKey s.tasks prevTid) (eraseKey s.hashIdx h)
      s.workers s.counter) h = [] ∧
    lookupA (eraseKey s.hashIdx h) h = none := by
  have hInv' := hInv
  obtain ⟨h1, h2, h3, h4, h5, h6, h7, h8, h9⟩ := hInv'
  have hmem_h : (h, prevTid) ∈ s.hashIdx := lookupA_eq_some_mem hlk
  refine ⟨⟨?_, ?_, ?_, ?_, ?_, ?_, ?_, ?_, ?_⟩, ?_, lookupA_eraseKey_self _ _⟩
  · exact ((List.filter_sublist _).map Prod.fst).nodup h1
  · exact ((List.filter_sublist _).map Prod.fst).nodup h2
  · exact ((List.filter_sublist _).map Prod.snd).nodup h3
  · intro p hp
    obtain ⟨hpm, hpne⟩ := (mem_eraseKey s.hashIdx h p).mp hp
    obtain ⟨q, hq, hq1, hq2⟩ := h4 p hpm
    have hvne : p.2 ≠ prevTid := by
      intro he
      have hpm' : (p.1, p.2) ∈ s.hashIdx := by simpa using hpm
      rw [he] at hpm'
      exact hpne (vals_unique h3 hpm' hmem_h)
    refine ⟨q, (mem_eraseKey s.tasks prevTid q).mpr ⟨hq, ?_⟩, hq1, hq2⟩
    rw [hq1]; exact hvne
  · intro q hq
    obtain ⟨hqm, hqne⟩ := (mem_eraseKey s.tasks prevTid q).mp hq
    apply (mem_eraseKey s.hashIdx h _).mpr
    refine ⟨h5 q hqm, ?_⟩
    intro he
    apply hqne
    exact keys_unique h2 (by rw [← he]; exact h5 q hqm) hmem_h
  · intro q hq
    exact h6 q ((mem_eraseKey s.tasks prevTid q).mp hq).1
  · intro q hq q' hq'
    exact h7 q ((mem_eraseKey s.tasks prevTid q).mp hq).1
      q' ((mem_eraseKey s.tasks prevTid q').mp hq').1
  · intro i hi halive
    obtain ⟨q, hq, hidx⟩ := h8 i hi halive
    refine ⟨q, (mem_eraseKey s.tasks prevTid q).mpr ⟨hq, ?_⟩, hidx⟩
    intro he
    have hq2 : q.2 = pt := by
      have e := mem_lookupA_of_nodup h1
        (show (q.1, q.2) ∈ s.tasks by simpa using hq)
      rw [he, hlt] at e
      exact (Option.some.inj e).symm
    rw [← hq2, hidx] at hdead
    rw [halive] at hdead
    exact Bool.noConfusion hdead
  · intro q hq
    exact h9 q ((mem_eraseKey s.tasks prevTid q).mp hq).1
  · apply List.eq_nil_iff_forall_not_mem.mpr
    intro i hi
    have hi' : i ∈ liveIdx s h := by
      rw [mem_liveIdx_iff] at hi ⊢
      exact hi
    have hip := live_fp_is_prev s hInv h prevTid pt hlk hlt i hi'
    have halive := ((mem_liveIdx_iff s h i).mp hi').2.1
    rw [hip] at halive
    exact absurd halive (by simp [hdead])

/-- Supersession branch of `background`: `_stop_task` pops the task,
drops its fingerprint entry, and terminates the (still alive)
worker. -/
theorem stop_task_good (s : Coord) (hInv : Inv s) (h : String)
    (prevTid : TaskId) (pt : Task)
    (hlk : lookupA s.hashIdx h = some prevTid)
    (hlt : lookupA s.tasks prevTid = some pt)
    (halive : workerAlive s.workers pt.workerIdx = true) :
    stop_task s prevTid =
      Coord.mk (eraseKey s.tasks prevTid) (eraseFirstVal s.hashIdx prevTid)
        (killAt s.workers pt.workerIdx) s.counter ∧
    Inv (stop_task s prevTid) ∧
    liveIdx (stop_task s prevTid) h = [] ∧
    lookupA (stop_task s prevTid).hashIdx h = none := by
  have hInv' := hInv
  obtain ⟨h1, h2, h3, h4, h5, h6, h7, h8, h9⟩ := hInv'
  have hmem_h : (h, prevTid) ∈ s.hashIdx := lookupA_eq_some_mem hlk
  have hmem_t : (prevTid, pt) ∈ s.tasks := lookupA_eq_some_mem hlt
  have hred : stop_task s prevTid =
      Coord.mk (eraseKey s.tasks prevTid) (eraseFirstVal s.hashIdx prevTid)
        (killAt s.workers pt.workerIdx) s.counter := by
    unfold stop_task
    rw [hlt]
    simp only [halive, if_true]
  have hefv : ∀ q, q ∈ eraseFirstVal s.hashIdx prevTid ↔
      q ∈ s.hashIdx ∧ q.2 ≠ prevTid := mem_eraseFirstVal s.hashIdx prevTid h3
  have hprev_entry : ∀ q ∈ s.tasks, q.1 = prevTid → q.2 = pt := by
    intro q hq he
    have e := mem_lookupA_of_nodup h1
      (show (q.1, q.2) ∈ s.tasks by simpa using hq)
    rw [he, hlt] at e
    exact (Option.some.inj e).symm
  refine ⟨hred, ?_, ?_, ?_⟩
  · rw [hred]
    refine ⟨?_, ?_, ?_, ?_, ?_, ?_, ?_, ?_, ?_⟩
    · exact ((List.filter_sublist _).map Prod.fst).nodup h1
    · exact ((eraseFirstVal_sublist _ _).map Prod.fst).nodup h2
    · exact ((eraseFirstVal_sublist _ _).map Prod.snd).nodup h3
    · intro p hp
      obtain ⟨hpm, hpne⟩ := (hefv p).mp hp
      obtain ⟨q, hq, hq1, hq2⟩ := h4 p hpm
      refine ⟨q, (mem_eraseKey s.tasks prevTid q).mpr ⟨hq, ?_⟩, hq1, hq2⟩
      rw [hq1]; exact hpne
    · intro q hq
      obtain ⟨hqm, hqne⟩ := (mem_eraseKey s.tasks prevTid q).mp hq
      exact (hefv _).mpr ⟨h5 q hqm, hqne⟩
    · intro q hq
      obtain ⟨hqm, hqne⟩ := (mem_eraseKey s.tasks prevTid q).mp hq
      have hne : q.2.workerIdx ≠ pt.workerIdx := by
        intro he
        exact hqne (congrArg Prod.fst
          (h7 q hqm (prevTid, pt) hmem_t (by simpa using he)))
      show ((killAt s.workers pt.workerIdx).get? q.2.workerIdx).map Worker.fp = _
      rw [killAt_get?_ne s.workers pt.workerIdx q.2.workerIdx hne]
      exact h6 q hqm
    · intro q hq q' hq'
      exact h7 q ((mem_eraseKey s.tasks prevTid q).mp hq).1
        q' ((mem_eraseKey s.tasks prevTid q').mp hq').1
    · intro i hi halive'
      have hi' : i ∈ List.range s.workers.length := by
        simpa [killAt_length] using hi
      by_cases hie : i = pt.workerIdx
      · rw [hie] at halive'
        rw [show (Coord.mk (eraseKey s.tasks prevTid)
            (eraseFirstVal s.hashIdx prevTid)
            (killAt s.workers pt.workerIdx) s.counter).workers =
            killAt s.workers pt.workerIdx from rfl,
          workerAlive_killAt_self] at halive'
        exact absurd halive' (by simp)
      · rw [show (Coord.mk (eraseKey s.tasks prevTid)
            (eraseFirstVal s.hashIdx prevTid)
            (killAt s.workers pt.workerIdx) s.counter).workers =
            killAt s.workers pt.workerIdx from rfl,
          workerAlive_killAt_ne s.workers pt.workerIdx i hie] at halive'
        obtain ⟨q, hq, hidx⟩ := h8 i hi' halive'
        refine ⟨q, (mem_eraseKey s.tasks prevTid q).mpr ⟨hq, ?_⟩, hidx⟩
        intro he
        apply hie
        rw [← hidx, hprev_entry q hq he]
    · intro q hq
      exact h9 q ((mem_eraseKey s.tasks prevTid q).mp hq).1
  · rw [hred]
    apply List.eq_nil_iff_forall_not_mem.mpr
    intro i hi
    rw [mem_liveIdx_iff] at hi
    obtain ⟨hilen, hial, hifp⟩ := hi
    by_cases hie : i = pt.workerIdx
    · rw [hie] at hial
      rw [show (Coord.mk (eraseKey s.tasks prevTid)
          (eraseFirstVal s.hashIdx prevTid)
          (killAt s.workers pt.workerIdx) s.counter).workers =
          killAt s.workers pt.workerIdx from rfl,
        workerAlive_killAt_self] at hial
      exact absurd hial (by simp)
    · have hial' : workerAlive s.workers i = true := by
        rw [show (Coord.mk (eraseKey s.tasks prevTid)
            (eraseFirstVal s.hashIdx prevTid)
            (killAt s.workers pt.workerIdx) s.counter).workers =
            killAt s.workers pt.workerIdx from rfl,
          workerAlive_killAt_ne s.workers pt.workerIdx i hie] at hial
        exact hial
      have hifp' : (s.workers.get? i).map Worker.fp = some h := by
        rw [show (Coord.mk (eraseKey s.tasks prevTid)
            (eraseFirstVal s.hashIdx prevTid)
            (killAt s.workers pt.workerIdx) s.counter).workers =
            killAt s.workers pt.workerIdx from rfl,
          killAt_get?_ne s.workers pt.workerIdx i hie] at hifp
        exact hifp
      have hi' : i ∈ liveIdx s h := (mem_liveIdx_iff s h i).mpr
        ⟨by simpa [killAt_length] using hilen, hial', hifp'⟩
      exact hie (live_fp_is_prev s hInv h prevTid pt hlk hlt i hi')
  · rw [hred]
    show lookupA (eraseFirstVal s.hashIdx prevTid) h = none
    cases he : lookupA (eraseFirstVal s.hashIdx prevTid) h with
    | none => rfl
    | some v =>
      exfalso
      obtain ⟨hvm, hvne⟩ := (hefv _).mp (lookupA_eq_some_mem he)
      exact hvne (keys_unique h2 hvm hmem_h)

/-- Registration of a fresh task on a state with no live worker and no
fingerprint entry for `h`: the invariant is preserved, exactly one live
worker for `h` exists afterwards, and old task ids and worker slots are
untouched. -/
theorem spawn_good (s1 : Coord) (h uuidSfx : String) (hInv : Inv s1)
    (_hempty : liveIdx s1 h = []) (hnone : lookupA s1.hashIdx h = none) :
    Inv (spawn s1 h uuidSfx) ∧
    liveCount (spawn s1 h uuidSfx) h = 1 ∧
    (∀ tid : TaskId, tid.1 ≤ s1.counter →
      lookupA (spawn s1 h uuidSfx).tasks tid = lookupA s1.tasks tid) ∧
    (∀ tid : TaskId, tid.1 ≤ s1.counter → tid ∉ s1.hashIdx.map Prod.snd →
      tid ∉ (spawn s1 h uuidSfx).hashIdx.map Prod.snd) ∧
    (spawn s1 h uuidSfx).workers = s1.workers ++ [⟨h, true⟩] := by
  have hInv' := hInv
  obtain ⟨h1, h2, h3, h4, h5, h6, h7, h8, h9⟩ := hInv'
  have htfresh : containsKey s1.tasks (s1.counter + 1, uuidSfx) = false := by
    cases hc : containsKey s1.tasks (s1.counter + 1, uuidSfx) with
    | false => rfl
    | true =>
      exfalso
      unfold containsKey at hc
      obtain ⟨t, ht⟩ := Option.isSome_iff_exists.mp hc
      have hb : s1.counter + 1 ≤ s1.counter := h9 _ (lookupA_eq_some_mem ht)
      omega
  have hhfresh : containsKey s1.hashIdx h = false := by
    unfold containsKey
    rw [hnone]
    rfl
  have htasks : (spawn s1 h uuidSfx).tasks =
      s1.tasks ++ [((s1.counter + 1, uuidSfx), ⟨s1.workers.length, h⟩)] := by
    show insertA s1.tasks (s1.counter + 1, uuidSfx) ⟨s1.workers.length, h⟩ = _
    exact insertA_of_not_contains _ htfresh
  have hhash : (spawn s1 h uuidSfx).hashIdx =
      s1.hashIdx ++ [(h, (s1.counter + 1, uuidSfx))] := by
    show insertA s1.hashIdx h (s1.counter + 1, uuidSfx) = _
    exact insertA_of_not_contains _ hhfresh
  have hworkers : (spawn s1 h uuidSfx).workers = s1.workers ++ [⟨h, true⟩] := rfl
  have hcounter : (spawn s1 h uuidSfx).counter = s1.counter + 1 := rfl
  have htkeys : (s1.counter + 1, uuidSfx) ∉ s1.tasks.map Prod.fst := by
    intro hm
    obtain ⟨q, hq, he⟩ := List.mem_map.mp hm
    have hb : q.1.1 ≤ s1.counter := h9 q hq
    rw [he] at hb
    have hb' : s1.counter + 1 ≤ s1.counter := hb
    omega
  have hhkeys : h ∉ s1.hashIdx.map Prod.fst := by
    intro hm
    have hc := mem_keys_containsKey hm
    rw [hhfresh] at hc
    exact Bool.noConfusion hc
  have hhvals : (s1.counter + 1, uuidSfx) ∉ s1.hashIdx.map Prod.snd := by
    intro hm
    obtain ⟨p, hp, he⟩ := List.mem_map.mp hm
    obtain ⟨q, hq, hq1, -⟩ := h4 p hp
    have hb : q.1.1 ≤ s1.counter := h9 q hq
    rw [hq1, he] at hb
    have hb' : s1.counter + 1 ≤ s1.counter := hb
    omega
  have hInvSp : Inv (spawn s1 h uuidSfx) := by
    refine ⟨?_, ?_, ?_, ?_, ?_, ?_, ?_, ?_, ?_⟩
    · rw [htasks, List.map_append]
      exact nodup_concat_of_not_mem h1 htkeys
    · rw [hhash, List.map_append]
      exact nodup_concat_of_not_mem h2 hhkeys
    · rw [hhash, List.map_append]
      exact nodup_concat_of_not_mem h3 hhvals
    · rw [hhash, htasks]
      intro p hp
      rcases List.mem_append.mp hp with hold | hnew
      · obtain ⟨q, hq, hq1, hq2⟩ := h4 p hold
        exact ⟨q, List.mem_append.mpr (Or.inl hq), hq1, hq2⟩
      · have hpe : p = (h, (s1.counter + 1, uuidSfx)) := by simpa using hnew
        subst hpe
        exact ⟨((s1.counter + 1, uuidSfx), ⟨s1.workers.length, h⟩),
          List.mem_append.mpr (Or.inr (by simp)), rfl, rfl⟩
    · rw [htasks, hhash]
      intro q hq
      rcases List.mem_append.mp hq with hold | hnew
      · exact List.mem_append.mpr (Or.inl (h5 q hold))
      · have hqe : q = ((s1.counter + 1, uuidSfx), ⟨s1.workers.length, h⟩) := by
          simpa using hnew
        subst hqe
        exact List.mem_append.mpr (Or.inr (by simp))
    · rw [htasks, hworkers]
      intro q hq
      rcases List.mem_append.mp hq with hold | hnew
      · have h6q := h6 q hold
        have hlen : q.2.workerIdx < s1.workers.length := idx_lt_of_workerFp h6q
        rw [List.get?_append hlen]
        exact h6q
      · have hqe : q = ((s1.counter + 1, uuidSfx), ⟨s1.workers.length, h⟩) := by
          simpa using hnew
        subst hqe
        show ((s1.workers ++ [(⟨h, true⟩ : Worker)]).get?
          s1.workers.length).map Worker.fp = some h
        rw [List.get?_concat_length]
        rfl
    · rw [htasks]
      intro q hq q' hq' he
      rcases List.mem_append.mp hq with hold | hnew <;>
        rcases List.mem_append.mp hq' with hold' | hnew'
      · exact h7 q hold q' hold' he
      · exfalso
        have hqe : q' = ((s1.counter + 1, uuidSfx), ⟨s1.workers.length, h⟩) := by
          simpa using hnew'
        have hlen : q.2.workerIdx < s1.workers.length :=
          idx_lt_of_workerFp (h6 q hold)
        rw [hqe] at he
        have he' : q.2.workerIdx = s1.workers.length := he
        omega
      · exfalso
        have hqe : q = ((s1.counter + 1, uuidSfx), ⟨s1.workers.length, h⟩) := by
          simpa using hnew
        have hlen : q'.2.workerIdx < s1.workers.length :=
          idx_lt_of_workerFp (h6 q' hold')
        rw [hqe] at he
        have he' : s1.workers.length = q'.2.workerIdx := he
        omega
      · have hqe : q = ((s1.counter + 1, uuidSfx), ⟨s1.workers.length, h⟩) := by
          simpa using hnew
        have hqe' : q' = ((s1.counter + 1, uuidSfx), ⟨s1.workers.length, h⟩) := by
          simpa using hnew'
        rw [hqe, hqe']
    · rw [htasks, hworkers]
      intro i hi halive
      rw [List.mem_range, List.length_append] at hi
      by_cases hie : i = s1.workers.length
      · refine ⟨((s1.counter + 1, uuidSfx), ⟨s1.workers.length, h⟩),
          List.mem_append.mpr (Or.inr (by simp)), hie.symm⟩
      · have hlt : i < s1.workers.length := by
          have hi' : i < s1.workers.length + 1 := by simpa using hi
          omega
        rw [workerAlive_append_lt _ _ _ hlt] at halive
        obtain ⟨q, hq, hidx⟩ := h8 i (List.mem_range.mpr hlt) halive
        exact ⟨q, List.mem_append.mpr (Or.inl hq), hidx⟩
    · rw [htasks, hcounter]
      intro q hq
      rcases List.mem_append.mp hq with hold | hnew
      · exact Nat.le_trans (h9 q hold) (Nat.le_succ _)
      · have hqe : q = ((s1.counter + 1, uuidSfx), ⟨s1.workers.length, h⟩) := by
          simpa using hnew
        rw [hqe]
  have hmemn : s1.workers.length ∈ liveIdx (spawn s1 h uuidSfx) h := by
    rw [mem_liveIdx_iff]
    refine ⟨?_, ?_, ?_⟩
    · rw [hworkers, List.length_append]
      simp
    · show workerAlive (spawn s1 h uuidSfx).workers s1.workers.length = true
      rw [hworkers]
      unfold workerAlive
      rw [List.get?_concat_length]
    · show ((spawn s1 h uuidSfx).workers.get? s1.workers.length).map Worker.fp =
        some h
      rw [hworkers, List.get?_concat_length]
      rfl
  have hpos : 0 < liveCount (spawn s1 h uuidSfx) h :=
    List.length_pos.mpr (List.ne_nil_of_mem hmemn)
  have hle := liveCount_le_one (spawn s1 h uuidSfx) hInvSp h
  refine ⟨hInvSp, by omega, ?_, ?_, hworkers⟩
  · intro tid htid
    rw [htasks, lookupA_append]
    have hne : tid ≠ (s1.counter + 1, uuidSfx) := by
      intro he
      rw [he] at htid
      have htid' : s1.counter + 1 ≤ s1.counter := htid
      omega
    cases hlo : lookupA s1.tasks tid with
    | some v => rfl
    | none =>
      show lookupA [((s1.counter + 1, uuidSfx),
        (⟨s1.workers.length, h⟩ : Task))] tid = none
      simp [lookupA, Ne.symm hne]
  · intro tid htid hnotm
    rw [hhash, List.map_append]
    intro hm
    rcases List.mem_append.mp hm with hold | hnew
    · exact hnotm hold
    · have he : tid = (s1.counter + 1, uuidSfx) := by simpa using hnew
      rw [he] at htid
      have htid' : s1.counter + 1 ≤ s1.counter := htid
      omega

/-- A coordinator with one registered task whose worker (slot 0,
fingerprint "h0") is still alive. -/
def demoCoord1 : Coord :=
  ⟨[((1, "u0"), ⟨0, "h0"⟩)], [("h0", (1, "u0"))], [⟨"h0", true⟩], 1⟩

/-- **C1.** At most one live worker per source-text fingerprint: from any
well-formed coordinator state, a `background` submission preserves
well-formedness, leaves exactly one live worker for the submitted cell's
fingerprint and at most one live worker for every fingerprint; and if the
fingerprint previously mapped to a registered task whose worker was still
alive, that task is removed from the registry and the fingerprint index
and its worker is terminated. -/
theorem at_most_one_live_worker_per_fingerprint
    (sha1hex : String → String) (s : Coord) (cell uuidSfx : String)
    (hInv : Inv s) :
    Inv (background sha1hex s cell uuidSfx) ∧
    liveCount (background sha1hex s cell uuidSfx) (sha1hex cell) = 1 ∧
    (∀ f, liveCount (background sha1hex s cell uuidSfx) f ≤ 1) ∧
    (∀ prevTid pt, lookupA s.hashIdx (sha1hex cell) = some prevTid →
      lookupA s.tasks prevTid = some pt →
      workerAlive s.workers pt.workerIdx = true →
      lookupA (background sha1hex s cell uuidSfx).tasks prevTid = none ∧
      prevTid ∉ (background sha1hex s cell uuidSfx).hashIdx.map Prod.snd ∧
      workerAlive (background sha1hex s cell uuidSfx).workers pt.workerIdx =
        false) := by
  have hInvC := hInv
  obtain ⟨h1, h2, h3, h4, h5, h6, h7, h8, h9⟩ := hInvC
  cases hlk : lookupA s.hashIdx (sha1hex cell) with
  | none =>
    have hbg : background sha1hex s cell uuidSfx =
        spawn s (sha1hex cell) uuidSfx := by
      simp only [background]
      rw [hlk]
    rw [hbg]
    obtain ⟨hI, hC, -, -, -⟩ :=
      spawn_good s (sha1hex cell) uuidSfx hInv
        (liveIdx_empty_of_hash_none s hInv _ hlk) hlk
    refine ⟨hI, hC, fun f => liveCount_le_one _ hI f, ?_⟩
    intro prevTid pt hlk' _ _
    exact Option.noConfusion hlk'
  | some prevTid =>
    cases hlt : lookupA s.tasks prevTid with
    | none =>
      exfalso
      obtain ⟨q, hq, hq1, -⟩ := h4 _ (lookupA_eq_some_mem hlk)
      have hq1' : q.1 = prevTid := hq1
      have hm : lookupA s.tasks prevTid = some q.2 := by
        rw [← hq1']
        exact mem_lookupA_of_nodup h1
          (show (q.1, q.2) ∈ s.tasks by simpa using hq)
      rw [hlt] at hm
      exact Option.noConfusion hm
    | some pt =>
      have hmem_t : (prevTid, pt) ∈ s.tasks := lookupA_eq_some_mem hlt
      have hcnt : prevTid.1 ≤ s.counter := h9 _ hmem_t
      by_cases halive : workerAlive s.workers pt.workerIdx = true
      · have hbg : background sha1hex s cell uuidSfx =
            spawn (stop_task s prevTid) (sha1hex cell) uuidSfx := by
          simp only [background]
          rw [hlk]
          dsimp only
          rw [hlt]
          dsimp only
          rw [if_pos halive]
        obtain ⟨hred, hIs1, hEmpty, hNone1⟩ :=
          stop_task_good s hInv (sha1hex cell) prevTid pt hlk hlt halive
        obtain ⟨hI, hC, hLk, hVal, hW⟩ :=
          spawn_good (stop_task s prevTid) (sha1hex cell) uuidSfx hIs1
            hEmpty hNone1
        rw [hbg]
        refine ⟨hI, hC, fun f => liveCount_le_one _ hI f, ?_⟩
        intro prevTid' pt' hlk' hlt' halive'
        have he1 : prevTid = prevTid' := Option.some.inj hlk'
        subst he1
        have he2 : pt = pt' := by
          rw [hlt] at hlt'
          exact Option.some.inj hlt'
        subst he2
        have hcnt1 : prevTid.1 ≤ (stop_task s prevTid).counter := by
          rw [hred]
          exact hcnt
        refine ⟨?_, ?_, ?_⟩
        · rw [hLk prevTid hcnt1, hred]
          exact lookupA_eraseKey_self _ _
        · apply hVal prevTid hcnt1
          rw [hred]
          intro hm
          obtain ⟨p, hp, he⟩ := List.mem_map.mp hm
          exact ((mem_eraseFirstVal s.hashIdx prevTid h3 p).mp hp).2 he
        · rw [hW]
          have hidx : pt.workerIdx < s.workers.length :=
            idx_lt_of_workerFp (h6 (prevTid, pt) hmem_t)
          have hlen : pt.workerIdx < (stop_task s prevTid).workers.length := by
            rw [hred]
            show pt.workerIdx < (killAt s.workers pt.workerIdx).length
            rw [killAt_length]
            exact hidx
          rw [workerAlive_append_lt _ _ _ hlen, hred]
          exact workerAlive_killAt_self _ _
      · have hbg : background sha1hex s cell uuidSfx =
            spawn (Coord.mk (eraseKey s.tasks prevTid)
              (eraseKey s.hashIdx (sha1hex cell)) s.workers s.counter)
              (sha1hex cell) uuidSfx := by
          simp only [background]
          rw [hlk]
          dsimp only
          rw [hlt]
          dsimp only
          rw [if_neg halive]
        obtain ⟨hIs1, hEmpty, hNone1⟩ :=
          stale_cleanup_good s hInv (sha1hex cell) prevTid pt hlk hlt
            (by simpa using halive)
        obtain ⟨hI, hC, -, -, -⟩ :=
          spawn_good _ (sha1hex cell) uuidSfx hIs1 hEmpty hNone1
        rw [hbg]
        refine ⟨hI, hC, fun f => liveCount_le_one _ hI f, ?_⟩
        intro prevTid' pt' hlk' hlt' halive'
        have he1 : prevTid = prevTid' := Option.some.inj hlk'
        subst he1
        have he2 : pt = pt' := by
          rw [hlt] at hlt'
          exact Option.some.inj hlt'
        subst he2
        exact absurd halive' halive

/-- Witness: resubmitting to a coordinator whose previous worker for
fingerprint "h0" is still alive ends with exactly one live "h0"
worker. -/
theorem at_most_one_live_worker_per_fingerprint_witness :
    Inv demoCoord1 ∧
    liveCount (background (fun _ => "h0") demoCoord1 "cell" "u1") "h0" = 1 :=
  ⟨by decide, (at_most_one_live_worker_per_fingerprint (fun _ => "h0")
    demoCoord1 "cell" "u1" (by decide)).2.1⟩

end BackgroundMagic
